import Mathlib

/-!
# Verification of the slowpython compiler and list built-ins

Shallow embedding of `src/bytecode/compiler.rs` and
`src/builtin_types/list_type.rs` of ricardopieper/slowpython.

The repository's `bytecode/program.rs` and `ast/parser.rs` (which declare the
`Instruction`, `Const`, `CodeObject`, `Program`, `AST`, `Expr`, `Operator` and
`FunctionParameter` types) are not in the source snapshot; their shapes are
modelled from the spec (§3 data model, §6 AST contract) and from how
`compiler.rs` pattern-matches on them.  All compiler *logic* is translated
directly from `compiler.rs`.

Rust panics (`unwrap`, `panic!`, indexing a missing map key, arithmetic
underflow on `usize`) are modelled by `Option.none` results.
-/

namespace SlowPython

/-- Modelled from the spec (§6 operator set): the parser's operator enum. -/
inductive Operator where
  | Plus | Minus | Multiply | Divide | Mod
  | BitShiftLeft | BitShiftRight
  | Not | Equals | NotEquals
  | And | Or | Xor
  | Greater | GreaterEquals | Less | LessEquals
deriving DecidableEq, Repr

/-- Modelled from the spec (§6): `FunctionParameter` is `Simple(name)` or
`DefaultValue(name, expr)`. Default-value expressions are `Expr`s; to keep the
mutual nesting small the default expression is stored after `Expr` is declared,
so the two constructors carry the name and, for defaults, an index into
`DeclareFunction`'s expression list would be needed — instead we declare the
parameter type mutually below. -/
inductive Expr where
  | IntegerValue (i : Int)
  | FloatValue (bits : Nat)  -- f64 payload, identified by its bit pattern
  | BooleanValue (b : Bool)
  | StringValue (s : String)
  | NoneValue
  | Variable (name : String)
  | MemberAccess (e : Expr) (name : String)
  | IndexAccess (e : Expr) (index : Expr)
  | Array (elems : List Expr)
  | FunctionCall (f : Expr) (params : List Expr)
  | BinaryOperation (lhs : Expr) (op : Operator) (rhs : Expr)
  | UnaryExpression (op : Operator) (rhs : Expr)
  | Parenthesized (e : Expr)
deriving Repr

/-- Modelled from the spec (§6). -/
inductive FunctionParameter where
  | Simple (name : String)
  | DefaultValue (name : String) (expr : Expr)
deriving Repr

/-- Modelled from the spec (§6 AST contract): the statement nodes consumed by
`compile_ast_internal`.  `IfStatement`'s `true_branch` is a pair of condition
expression and statement list; `elifs` is a list of such pairs (ignored by the
compiler, which binds it as `elifs: _`). -/
inductive AST where
  | Assign (path : List String) (expression : Expr)
  | StandaloneExpr (e : Expr)
  | Return (e : Option Expr)
  | IfStatement (cond : Expr) (trueStmts : List AST)
      (elifs : List (Expr × List AST)) (finalElse : Option (List AST))
  | WhileStatement (expression : Expr) (body : List AST)
  | ForStatement (itemName : String) (listExpression : Expr) (body : List AST)
  | DeclareFunction (functionName : String) (parameters : List FunctionParameter)
      (body : List AST)
  | ClassDeclaration (className : String) (body : List AST)
  | Raise (e : Expr)
  | Break
deriving Repr

/-- Modelled from the spec (§4.2.1 opcode set) and the constructors used by
`compiler.rs`.  Jump targets, constant indices and name slots are `usize` in
Rust; the compiler only ever computes them by addition from `0`, so `Nat` is
exact. -/
inductive Instruction where
  | LoadConst (i : Nat)
  | LoadAttr (name : String)
  | CallFunction (numberArguments : Nat)
  | BinaryAdd | BinaryModulus | BinarySubtract | BinaryMultiply | BinaryTrueDivision
  | CompareLessThan | CompareGreaterThan | CompareEquals
  | CompareGreaterEquals | CompareLessEquals | CompareNotEquals
  | IndexAccess
  | BuildList (numberElements : Nat)
  | UnresolvedLoadName (name : String)
  | UnresolvedStoreName (name : String)
  | UnresolvedStoreAttr (name : String)
  | LoadName (slot : Nat)
  | StoreName (slot : Nat)
  | StoreAttr (slot : Nat)
  | LoadGlobal (slot : Nat)
  | MakeFunction (hasDefaults : Bool)
  | MakeClass
  | ForIter (target : Nat)
  | JumpUnconditional (target : Nat)
  | JumpIfFalseAndPopStack (target : Nat)
  | Raise
  | ReturnValue
  | PopTop
  | UnresolvedBreak
deriving DecidableEq, Repr

/-- Modelled from the spec (§3): a constant is Integer (i128, modelled exactly
as `Int` — no claim exercises i128 wrap-around in constants), Float (by bit
pattern, which is what the total order used for interning distinguishes),
Boolean, String, None or an embedded code object.  The code-object constructor
carries the `CodeObject` fields inline because a `Const` list sits inside it. -/
inductive Const where
  | integer (i : Int)
  | float (bits : Nat)
  | boolean (b : Bool)
  | str (s : String)
  | noneVal
  | codeObject (instructions : List Instruction) (names : List String)
      (params : List String) (consts : List Const) (main : Bool) (objname : String)
deriving Repr

/-- The `CodeObject` struct of `bytecode/program.rs` (shape modelled from the
spec §3 and the field accesses in `compiler.rs`). -/
structure CodeObject where
  instructions : List Instruction
  names : List String
  params : List String
  consts : List Const
  main : Bool
  objname : String
deriving Repr

/-- Repackage a `CodeObject` as a constant (`Const::CodeObject(...)`). -/
def Const.ofCode (co : CodeObject) : Const :=
  .codeObject co.instructions co.names co.params co.consts co.main co.objname

/-- The `Program` struct: `Program { version, code_objects }`. -/
structure Program where
  version : Nat
  code_objects : List CodeObject
deriving Repr

mutual
/-- Structural equality of constants, mirroring the derived `PartialEq`/`Ord`
used by the `BTreeMap<Const, usize>` key lookup (equal keys are exactly
structurally equal values; for floats the interning order is total, i.e. by
bit pattern). -/
def constBeq : Const → Const → Bool
  | .integer a, .integer b => a == b
  | .float a, .float b => a == b
  | .boolean a, .boolean b => a == b
  | .str a, .str b => a == b
  | .noneVal, .noneVal => true
  | .codeObject i1 n1 p1 c1 m1 o1, .codeObject i2 n2 p2 c2 m2 o2 =>
      i1 == i2 && n1 == n2 && p1 == p2 && constsBeq c1 c2 && m1 == m2 && o1 == o2
  | _, _ => false

def constsBeq : List Const → List Const → Bool
  | [], [] => true
  | a :: as', b :: bs => constBeq a b && constsBeq as' bs
  | _, _ => false
end

/-- The compiler's constant map `BTreeMap<Const, usize>`.  Every insertion
assigns the map's current size as the value, so the indices are exactly
`0, 1, 2, …` in insertion order and the map is faithfully a duplicate-free
list of constants whose position is the assigned index.  (`make_code_object`
recovers exactly this list: it collects the `(const, index)` pairs and sorts by
index.) -/
abbrev ConstMap := List Const

/-- Position of `c` in the constant map, by the `BTreeMap` key equality. -/
def cmIdxOf : ConstMap → Const → Option Nat
  | [], _ => Option.none
  | d :: ds, c => if constBeq d c then some 0 else (cmIdxOf ds c).map (· + 1)

/-- `process_constval` (compiler.rs:7): look the constant up, inserting it with
index `const_map.len()` if absent; emit `LoadConst(idx)`.  Returns the emitted
instructions together with the updated map. -/
def process_constval (constval : Const) (constMap : ConstMap) :
    List Instruction × ConstMap :=
  match cmIdxOf constMap constval with
  | some idx => ([Instruction.LoadConst idx], constMap)
  | Option.none => ([Instruction.LoadConst constMap.length], constMap ++ [constval])

mutual
/-- `compile_expr` (compiler.rs:19).  `Option.none` models the `panic!` arms
(unimplemented operators, `Parenthesized` leaking to the compiler). -/
def compile_expr : Expr → ConstMap → Option (List Instruction × ConstMap)
  | .IntegerValue i, m => some (process_constval (.integer i) m)
  | .FloatValue f, m => some (process_constval (.float f) m)
  | .BooleanValue b, m => some (process_constval (.boolean b) m)
  | .StringValue s, m => some (process_constval (.str s) m)
  | .NoneValue, m => some (process_constval .noneVal m)
  | .MemberAccess e name, m =>
      match compile_expr e m with
      | some (lhs, m1) => some (lhs ++ [Instruction.LoadAttr name], m1)
      | Option.none => Option.none
  | .BinaryOperation lhs op rhs, m =>
      match op with
      | .And | .Or | .Xor =>
        let loadAttr : List Instruction :=
          match op with
          | .And => [Instruction.LoadAttr "__and__"]
          | .Or => [Instruction.LoadAttr "__or__"]
          | _ => [Instruction.LoadAttr "__xor__"]
        (match compile_expr lhs m with
         | some (lhsProg, m1) =>
           match compile_expr rhs m1 with
           | some (rhsProg, m2) =>
               some (lhsProg ++ loadAttr ++ rhsProg ++ [Instruction.CallFunction 1], m2)
           | Option.none => Option.none
         | Option.none => Option.none)
      | _ =>
        (match compile_expr lhs m with
         | some (lhsProg, m1) =>
           match compile_expr rhs m1 with
           | some (rhsProg, m2) =>
             let opcode : Option Instruction :=
               match op with
               | .Plus => some .BinaryAdd
               | .Mod => some .BinaryModulus
               | .Minus => some .BinarySubtract
               | .Multiply => some .BinaryMultiply
               | .Divide => some .BinaryTrueDivision
               | .Less => some .CompareLessThan
               | .Greater => some .CompareGreaterThan
               | .Equals => some .CompareEquals
               | .GreaterEquals => some .CompareGreaterEquals
               | .LessEquals => some .CompareLessEquals
               | .NotEquals => some .CompareNotEquals
               | _ => Option.none  -- panic!("Operator not implemented")
             match opcode with
             | some oc => some (lhsProg ++ rhsProg ++ [oc], m2)
             | Option.none => Option.none
           | Option.none => Option.none
         | Option.none => Option.none)
  | .UnaryExpression op rhs, m =>
      let loadAttr : Option (List Instruction) :=
        match op with
        | .Plus => some [Instruction.LoadAttr "__pos__"]
        | .Not => some [Instruction.LoadAttr "__not__"]
        | .Minus => some [Instruction.LoadAttr "__neg__"]
        | _ => Option.none  -- panic!("operator not implemented")
      (match loadAttr with
       | some la =>
         match compile_expr rhs m with
         | some (rhsProg, m1) =>
             some (rhsProg ++ la ++ [Instruction.CallFunction 0], m1)
         | Option.none => Option.none
       | Option.none => Option.none)
  | .FunctionCall fcallExpr params, m =>
      (match compile_expr fcallExpr m with
       | some (methodInstrs, m1) =>
         match compile_expr_list params m1 with
         | some (paramInstrs, m2) =>
             some (methodInstrs ++ paramInstrs ++
               [Instruction.CallFunction params.length], m2)
         | Option.none => Option.none
       | Option.none => Option.none)
  | .IndexAccess e index, m =>
      (match compile_expr e m with
       | some (indexedValue, m1) =>
         match compile_expr index m1 with
         | some (indexValue, m2) =>
             some (indexedValue ++ indexValue ++ [Instruction.IndexAccess], m2)
         | Option.none => Option.none
       | Option.none => Option.none)
  | .Array exprs, m =>
      (match compile_expr_list exprs m with
       | some (instrs, m1) =>
           some (instrs ++ [Instruction.BuildList exprs.length], m1)
       | Option.none => Option.none)
  | .Variable varName, _m => some ([Instruction.UnresolvedLoadName varName], _m)
  | .Parenthesized _, _ => Option.none  -- panic!("Parenthesized expr should not leak")

/-- The `for param_expr in params` loops of `compile_expr`: compile each
expression in order, appending the instruction streams and threading the
constant map. -/
def compile_expr_list : List Expr → ConstMap → Option (List Instruction × ConstMap)
  | [], m => some ([], m)
  | e :: rest, m =>
      match compile_expr e m with
      | some (is, m1) =>
        match compile_expr_list rest m1 with
        | some (restIs, m2) => some (is ++ restIs, m2)
        | Option.none => Option.none
      | Option.none => Option.none
end

/-! ## Name resolution (`resolve_loads_stores`, compiler.rs:171) -/

/-- The `names_indices : BTreeMap<String, usize>` of `resolve_loads_stores`,
kept as an insertion-ordered association list; only the final iteration of the
`BTreeMap` is order-sensitive, and there the entries are explicitly re-sorted
by key (`sortByKey`) to match `BTreeMap` iteration order. -/
abbrev NamesMap := List (String × Nat)

def nmLookup : NamesMap → String → Option Nat
  | [], _ => Option.none
  | (k, v) :: rest, n => if k == n then some v else nmLookup rest n

/-- `BTreeMap::insert`: overwrite the value if the key is present, otherwise
add the entry. -/
def nmInsert : NamesMap → String → Nat → NamesMap
  | [], k, v => [(k, v)]
  | (k', v') :: rest, k, v =>
      if k' == k then (k, v) :: rest else (k', v') :: nmInsert rest k v

/-- First loop of `resolve_loads_stores`: seed the map with the parameter list
(`names_indices.insert(name, names_indices.len())` for each parameter in
declaration order). -/
def seedParams (params : List String) : NamesMap :=
  params.foldl (fun m name => nmInsert m name m.length) []

/-- Second loop: give every not-yet-seen `UnresolvedStoreName` /
`UnresolvedStoreAttr` identifier the next free slot. -/
def collectStores : List Instruction → NamesMap → NamesMap
  | [], m => m
  | .UnresolvedStoreName name :: rest, m =>
      collectStores rest
        (if (nmLookup m name).isSome then m else nmInsert m name m.length)
  | .UnresolvedStoreAttr attr :: rest, m =>
      collectStores rest
        (if (nmLookup m attr).isSome then m else nmInsert m attr m.length)
  | _ :: rest, m => collectStores rest m

/-- The body of the `map` closure in the third loop of
`resolve_loads_stores`: rewrite one instruction, updating the captured map.
`Option.none` models the `names_indices.get(name).unwrap()` panic for a store
of a name the pre-pass did not record (unreachable for the pre-passed map,
but part of the code). -/
def resolveOne (params : List String) (inst : Instruction) (m : NamesMap) :
    Option (Instruction × NamesMap) :=
  match inst with
  | .UnresolvedLoadName name =>
    (match nmLookup m name with
     | some idx => some (Instruction.LoadName idx, m)
     | Option.none =>
       if params.contains name then
         some (Instruction.LoadName m.length, nmInsert m name m.length)
       else
         some (Instruction.LoadGlobal m.length, nmInsert m name m.length))
  | .UnresolvedStoreName name =>
    (match nmLookup m name with
     | some idx => some (Instruction.StoreName idx, m)
     | Option.none => Option.none)
  | .UnresolvedStoreAttr name =>
    (match nmLookup m name with
     | some idx => some (Instruction.StoreAttr idx, m)
     | Option.none => Option.none)
  | other => some (other, m)

/-- Third loop of `resolve_loads_stores` (the `map` over instructions, with
the map captured by mutable reference so the state threads left to right). -/
def resolveInstrs (params : List String) :
    List Instruction → NamesMap → Option (List Instruction × NamesMap)
  | [], m => some ([], m)
  | inst :: rest, m =>
    match resolveOne params inst m with
    | some (inst', m') =>
      (match resolveInstrs params rest m' with
       | some (is, mf) => some (inst' :: is, mf)
       | Option.none => Option.none)
    | Option.none => Option.none

/-- Insertion into a key-sorted association list (keys are distinct, so strict
comparison suffices). -/
def insertByKey (p : String × Nat) : NamesMap → NamesMap
  | [] => [p]
  | q :: qs => if p.1 < q.1 then p :: q :: qs else q :: insertByKey p qs

/-- Entries in `BTreeMap` iteration order, i.e. sorted by key. -/
def sortByKey : NamesMap → NamesMap
  | [] => []
  | p :: ps => insertByKey p (sortByKey ps)

/-- The `indices_names` rebuild: start from `vec!["", …]` of the map's length
and write `indices_names[v] = k` for each entry; `Option.none` models the
out-of-bounds panic when a slot value is not below the map's length (possible
when duplicate parameters made `seedParams` overwrite an entry). -/
def buildIndicesNames : NamesMap → List String → Option (List String)
  | [], arr => some arr
  | (k, v) :: rest, arr =>
      if v < arr.length then buildIndicesNames rest (arr.set v k) else Option.none

/-- `resolve_loads_stores` (compiler.rs:171). -/
def resolve_loads_stores (code : CodeObject) : Option CodeObject :=
  match resolveInstrs code.params code.instructions
      (collectStores code.instructions (seedParams code.params)) with
  | some (newInstructions, m2) =>
    (match buildIndicesNames (sortByKey m2) (List.replicate m2.length "") with
     | some indicesNames =>
         some { code with instructions := newInstructions, names := indicesNames }
     | Option.none => Option.none)
  | Option.none => Option.none

/-! ## Code-object assembly and the statement compiler -/

/-- The `if !const_map.contains_key(&Const::None) { const_map.insert(...) }`
step shared by `make_code_object` and the `Raise` arm. -/
def internNone (m : ConstMap) : ConstMap :=
  if (cmIdxOf m .noneVal).isSome then m else m ++ [Const.noneVal]

/-- `make_code_object` (compiler.rs:544).  The `vec_const` sorted by index is
exactly the insertion-ordered constant list, which is how `ConstMap` is
already represented (`code_obj.consts` and the map stay in lockstep when
`Const::None` is interned).  `Option.none` models the
`code_obj.instructions.last().unwrap()` panic on an empty instruction list
when `ensure_return` is set. -/
def make_code_object (instrs : List Instruction) (name : String)
    (constMap : ConstMap) (ensureReturn : Bool) : Option (CodeObject × ConstMap) :=
  if ensureReturn then
    match instrs.getLast? with
    | Option.none => Option.none
    | some .ReturnValue =>
        some ({ instructions := instrs, names := [], params := [],
                consts := constMap, main := false, objname := name }, constMap)
    | some _ =>
      (match cmIdxOf (internNone constMap) .noneVal with
       | some idx =>
           some ({ instructions := instrs ++ [.LoadConst idx, .ReturnValue],
                   names := [], params := [], consts := internNone constMap,
                   main := false, objname := name }, internNone constMap)
       | Option.none => Option.none)
  else
    some ({ instructions := instrs, names := [], params := [],
            consts := constMap, main := false, objname := name }, constMap)

/-- `generate_assign_path` (compiler.rs:273). -/
def generate_assign_path : List String → Bool → List Instruction
  | [], _ => []
  | first :: rest, isFirst =>
    if rest.length > 0 then
      (if isFirst then [Instruction.UnresolvedLoadName first]
       else [Instruction.LoadAttr first]) ++ generate_assign_path rest false
    else [Instruction.UnresolvedStoreAttr first]

/-- `build_fully_qualified_name` (compiler.rs:293). -/
def build_fully_qualified_name : Option String → String → String
  | some s, name => s ++ "." ++ name
  | Option.none, name => name

/-- The default-value loop of the `DeclareFunction` arm: compile each
`DefaultValue` expression in declaration order in the *outer* constant map,
counting them. -/
def compileDefaults : List FunctionParameter → ConstMap →
    Option (List Instruction × Nat × ConstMap)
  | [], m => some ([], 0, m)
  | .Simple _ :: rest, m => compileDefaults rest m
  | .DefaultValue _ e :: rest, m =>
    match compile_expr e m with
    | some (is, m1) =>
      (match compileDefaults rest m1 with
       | some (restIs, n, m2) => some (is ++ restIs, n + 1, m2)
       | Option.none => Option.none)
    | Option.none => Option.none

mutual
/-- The `for ast_item in ast` loop of `compile_ast_internal` (compiler.rs:300):
fold each statement into the growing `all_instructions`. -/
def compile_stmts : List AST → List Instruction → Nat → Option String → ConstMap →
    Option (List Instruction × ConstMap)
  | [], acc, _, _, m => some (acc, m)
  | a :: rest, acc, offset, qual, m =>
    match compile_stmt a acc offset qual m with
    | some (acc', m') => compile_stmts rest acc' offset qual m'
    | Option.none => Option.none

/-- One iteration of the `compile_ast_internal` statement loop, i.e. one
`match ast_item` arm (compiler.rs:303-534).  `acc` is `all_instructions` so
far; the result is the extended `all_instructions` and constant map.

Where the source calls `compile_ast_internal(body, o, q, false, results,
const_map)` and only reads `.instructions` of the result, this translation
calls `compile_stmts body [] o q const_map` directly: with
`ensure_return = false`, `make_code_object` returns those same instructions
unchanged and does not touch the constant map.  The `results` vector is
threaded through the source but never pushed to, so it is omitted. -/
def compile_stmt : AST → List Instruction → Nat → Option String → ConstMap →
    Option (List Instruction × ConstMap)
  | .Assign path expression, acc, _, _, m =>
    (match compile_expr expression m with
     | some (eis, m1) =>
       (match path with
        | [single] => some (acc ++ eis ++ [Instruction.UnresolvedStoreName single], m1)
        | _ => some (acc ++ eis ++ generate_assign_path path true, m1))
     | Option.none => Option.none)
  | .StandaloneExpr e, acc, _, _, m =>
    (match compile_expr e m with
     | some (eis, m1) => some (acc ++ eis ++ [Instruction.PopTop], m1)
     | Option.none => Option.none)
  | .Return (some e), acc, _, _, m =>
    (match compile_expr e m with
     | some (eis, m1) => some (acc ++ eis ++ [Instruction.ReturnValue], m1)
     | Option.none => Option.none)
  | .Return Option.none, acc, _, _, m =>
    -- `const_map[&Const::None]`: panics when `Const::None` was never interned
    (match cmIdxOf m .noneVal with
     | some i => some (acc ++ [Instruction.LoadConst i, Instruction.ReturnValue], m)
     | Option.none => Option.none)
  | .ClassDeclaration className body, acc, _, qual, m =>
    let qualname := build_fully_qualified_name qual className
    (match compile_stmts body [] 0 (some qualname) [] with
     | some (bodyInstrs, newMap) =>
       (match make_code_object bodyInstrs qualname newMap true with
        | some (classDeclFunction, _) =>
          (match resolve_loads_stores { classDeclFunction with main := false } with
           | some resolved =>
             let (codeIdx, m1) := process_constval (Const.ofCode resolved) m
             let (nameIdx, m2) := process_constval (.str qualname) m1
             some (acc ++ codeIdx ++ nameIdx ++
               [Instruction.MakeClass, Instruction.UnresolvedStoreName className], m2)
           | Option.none => Option.none)
        | Option.none => Option.none)
     | Option.none => Option.none)
  | .DeclareFunction functionName parameters body, acc, _, qual, m =>
    let qualname := build_fully_qualified_name qual functionName
    (match compile_stmts body [] 0 (some qualname) [] with
     | some (bodyInstrs, newMap) =>
       (match make_code_object bodyInstrs qualname newMap true with
        | some (funcCo, _) =>
          let funcCo := { funcCo with
            main := false,
            params := parameters.map (fun x =>
              match x with
              | .Simple n => n
              | .DefaultValue n _ => n) }
          (match compileDefaults parameters m with
           | some (defaultInstructions, numDefaults, m1) =>
             (match resolve_loads_stores funcCo with
              | some resolved =>
                let (codeIdx, m2) := process_constval (Const.ofCode resolved) m1
                let (nameIdx, m3) := process_constval (.str qualname) m2
                some (acc ++ defaultInstructions ++ [Instruction.BuildList numDefaults]
                  ++ codeIdx ++ nameIdx ++
                  [Instruction.MakeFunction (numDefaults > 0),
                   Instruction.UnresolvedStoreName functionName], m3)
              | Option.none => Option.none)
           | Option.none => Option.none)
        | Option.none => Option.none)
     | Option.none => Option.none)
  | .ForStatement itemName listExpression body, acc, offset, qual, m =>
    (match compile_expr listExpression m with
     | some (listIs, m1) =>
       let acc1 := acc ++ listIs ++
         [Instruction.LoadAttr "__iter__", Instruction.CallFunction 0]
       let offsetBeforeFor := acc1.length + offset
       (match compile_stmts body [] 0 qual m1 with
        | some (compiledBody, m2) =>
          let bodyInstructions := Instruction.UnresolvedStoreName itemName :: compiledBody
          -- +2 for the ForIter and JumpUnconditional instructions
          let offsetAfterLoop := offsetBeforeFor + bodyInstructions.length + 2
          let resolvedBreaks := bodyInstructions.map (fun instr =>
            match instr with
            | .UnresolvedBreak => Instruction.JumpUnconditional offsetAfterLoop
            | _ => instr)
          some (acc1 ++ (Instruction.ForIter offsetAfterLoop :: resolvedBreaks) ++
            [Instruction.JumpUnconditional offsetBeforeFor], m2)
        | Option.none => Option.none)
     | Option.none => Option.none)
  | .IfStatement cond trueStmts _elifs finalElse, acc, offset, qual, m =>
    (match compile_expr cond m with
     | some (condIs, m1) =>
       let acc1 := acc ++ condIs
       -- +1 because there will be an instruction before that will do the jump
       let offsetBeforeIf := offset + acc1.length + 1
       (match compile_stmts trueStmts [] offsetBeforeIf qual m1 with
        | some (trueIs, m2) =>
          (match finalElse with
           | some elseAst =>
             let offsetAfterTrueBranch := offsetBeforeIf + trueIs.length + 1
             let acc2 := acc1 ++
               [Instruction.JumpIfFalseAndPopStack offsetAfterTrueBranch] ++ trueIs
             (match compile_stmts elseAst [] offsetAfterTrueBranch qual m2 with
              | some (falseIs, m3) =>
                let offsetAfterElse := offsetAfterTrueBranch + falseIs.length
                some (acc2 ++ [Instruction.JumpUnconditional offsetAfterElse] ++
                  falseIs, m3)
              | Option.none => Option.none)
           | Option.none =>
             let offsetAfterTrueBranch := offsetBeforeIf + trueIs.length
             some (acc1 ++ [Instruction.JumpIfFalseAndPopStack offsetAfterTrueBranch]
               ++ trueIs, m2))
        | Option.none => Option.none)
     | Option.none => Option.none)
  | .WhileStatement expression body, acc, offset, qual, m =>
    let offsetBeforeWhile := acc.length + offset
    (match compile_expr expression m with
     | some (exprIs, m1) =>
       -- +1 for the jump if false; note that unlike `offset_before_while`, the
       -- source does not add `offset` here (compiler.rs:491)
       let offsetAfterExpr := acc.length + exprIs.length + 1
       (match compile_stmts body [] offsetAfterExpr qual m1 with
        | some (bodyIs, m2) =>
          let offsetAfterBody := offsetAfterExpr + bodyIs.length + 1
          let resolvedBreaks := bodyIs.map (fun instr =>
            match instr with
            | .UnresolvedBreak => Instruction.JumpUnconditional offsetAfterBody
            | _ => instr)
          some (acc ++ exprIs ++
            [Instruction.JumpIfFalseAndPopStack offsetAfterBody] ++ resolvedBreaks ++
            [Instruction.JumpUnconditional offsetBeforeWhile], m2)
        | Option.none => Option.none)
     | Option.none => Option.none)
  | .Raise e, acc, _, _, m =>
    (match compile_expr e m with
     | some (eis, m1) =>
       (match cmIdxOf (internNone m1) .noneVal with
        | some i => some (acc ++ eis ++
            [Instruction.Raise, Instruction.LoadConst i, Instruction.ReturnValue],
            internNone m1)
        | Option.none => Option.none)
     | Option.none => Option.none)
  | .Break, acc, _, _, m => some (acc ++ [Instruction.UnresolvedBreak], m)
end

/-- `compile_ast_internal` (compiler.rs:300): run the statement loop, then
assemble the code object. -/
def compile_ast_internal (ast : List AST) (offset : Nat) (qual : Option String)
    (ensureReturn : Bool) (m : ConstMap) : Option (CodeObject × ConstMap) :=
  match compile_stmts ast [] offset qual m with
  | some (instrs, m') =>
      make_code_object instrs (qual.getD "__main__") m' ensureReturn
  | Option.none => Option.none

/-- `compile` (compiler.rs:249): compile the whole program at offset 0 with a
fresh constant map, mark it as `main`, resolve names.  `all_results` starts
empty and is never pushed to by `compile_ast_internal`, so the final
`code_objects` vector holds exactly the top-level unit. -/
def compile (ast : List AST) : Option Program :=
  match compile_ast_internal ast 0 Option.none true [] with
  | some (compileResult, _) =>
    (match resolve_loads_stores { compileResult with main := true } with
     | some resolved => some { version := 1, code_objects := [resolved] }
     | Option.none => Option.none)
  | Option.none => Option.none

/-- The instruction edit of `compile_repl` (compiler.rs:234): index
`instructions.len() - 3`; if that instruction is a `PopTop`, remove it and
then `pop()` the (new) last instruction.  `Option.none` models the panic when
fewer than three instructions exist (`usize` underflow followed by an
out-of-bounds index). -/
def repl_trim (instructions : List Instruction) : Option (List Instruction) :=
  if instructions.length < 3 then Option.none
  else
    match instructions[instructions.length - 3]? with
    | some .PopTop =>
        some ((instructions.eraseIdx (instructions.length - 3)).dropLast)
    | some _ => some instructions
    | Option.none => Option.none

/-- `compile_repl` (compiler.rs:234): compile, then trim the last code
object's instruction list in place. -/
def compile_repl (ast : List AST) : Option Program :=
  match compile ast with
  | some compiled =>
    (match compiled.code_objects.getLast? with
     | some co =>
       (match repl_trim co.instructions with
        | some instrs' =>
            some { compiled with code_objects :=
              compiled.code_objects.dropLast ++ [{ co with instructions := instrs' }] }
        | Option.none => Option.none)
     | Option.none => Option.none)
  | Option.none => Option.none

/-! ## The runtime data model used by the list built-ins

`runtime/datamodel.rs` and `runtime/memory.rs` are not part of the source
snapshot; the heap and payload shapes below are modelled from the spec (§3
object model: an object has a type address, an attribute map and a payload;
list payloads are ordered sequences of addresses).  The list built-ins from
`builtin_types/list_type.rs` are translated directly. -/

/-- Modelled from the spec (§3): the `BuiltInTypeData` tagged union. -/
inductive BuiltInTypeData where
  | int (i : Int)
  | float (bits : Nat)
  | bool (b : Bool)
  | str (s : String)
  | list (elems : List Nat)
  | nothing
deriving DecidableEq, Repr

/-- Modelled from the spec (§3): the parts of a heap object the list
built-ins can touch — its attribute map and its raw built-in payload. -/
structure PyObject where
  attributes : List (String × Nat)
  data : BuiltInTypeData
deriving DecidableEq, Repr

/-- Modelled from the spec (§4.3): the heap maps opaque addresses to live
objects. -/
abbrev Heap := List (Nat × PyObject)

def heapLookup : Heap → Nat → Option PyObject
  | [], _ => Option.none
  | (k, o) :: rest, a => if k == a then some o else heapLookup rest a

def heapUpdate : Heap → Nat → PyObject → Heap
  | [], _, _ => []
  | (k, o) :: rest, a, obj =>
      if k == a then (k, obj) :: rest else (k, o) :: heapUpdate rest a obj

/-- `append` (list_type.rs:56): `take_list_mut` on the receiver's raw data
(`Option.none` models the panic when the receiver's payload is not a list),
push the single argument, return the receiver's own address. -/
def list_append (heap : Heap) (boundPyobj : Nat) (param : Nat) :
    Option (Heap × Nat) :=
  match heapLookup heap boundPyobj with
  | some obj =>
    (match obj.data with
     | .list selfData =>
         some (heapUpdate heap boundPyobj
           { obj with data := .list (selfData ++ [param]) }, boundPyobj)
     | _ => Option.none)
  | Option.none => Option.none

/-- The inner `for ptr_other in other_list` loop of `equals`
(list_type.rs:78-96), acting on the `list_equals` flag: identical addresses
are skipped (`continue`); a `Some` result equal to the `False` singleton sets
the flag false and breaks; a `None` result sets the flag false without
breaking.  `eqMethod a b` abstracts `runtime.call_method(a, "__eq__", [b])`,
whose implementation lives in runtime code outside the snapshot. -/
def listEqInner (eqMethod : Nat → Nat → Option Nat) (falseAddr : Nat)
    (ptrSelf : Nat) : List Nat → Bool → Bool
  | [], listEquals => listEquals
  | ptrOther :: rest, listEquals =>
    if ptrSelf == ptrOther then listEqInner eqMethod falseAddr ptrSelf rest listEquals
    else
      match eqMethod ptrSelf ptrOther with
      | some eqResult =>
          if eqResult == falseAddr then false
          else listEqInner eqMethod falseAddr ptrSelf rest listEquals
      | Option.none => listEqInner eqMethod falseAddr ptrSelf rest false

/-- The outer `for ptr_self in this_list` loop of `equals`. -/
def listEqOuter (eqMethod : Nat → Nat → Option Nat) (falseAddr : Nat)
    (otherList : List Nat) : List Nat → Bool → Bool
  | [], listEquals => listEquals
  | ptrSelf :: rest, listEquals =>
      listEqOuter eqMethod falseAddr otherList rest
        (listEqInner eqMethod falseAddr ptrSelf otherList listEquals)

/-- `equals` (list_type.rs:65), the built-in list `__eq__`: compare lengths,
run the nested loops over the two element lists, then return one of the
`True`/`False` singleton addresses.  The receiver's payload is the list
`thisList`; the argument's raw data is `otherData`. -/
def list_equals (eqMethod : Nat → Nat → Option Nat) (trueAddr falseAddr : Nat)
    (thisList : List Nat) (otherData : BuiltInTypeData) : Nat :=
  match otherData with
  | .list otherList =>
    if thisList.length != otherList.length then falseAddr
    else
      let listEquals := listEqOuter eqMethod falseAddr otherList thisList true
      if listEquals then falseAddr else trueAddr
  | _ => falseAddr

/-- Result of `getitem`: either the element's address or a raised
`IndexError` carrying its payload string. -/
inductive GetItemResult where
  | value (a : Nat)
  | indexError (payload : String)
deriving DecidableEq, Repr

/-- `getitem` (list_type.rs:194), the built-in list `__getitem__`: the index
is read as an `i128` and cast `as usize`, i.e. truncated to its low 64 bits
(the build targets a 64-bit `usize`); if the truncated index is not below the
list's length an `IndexError` is allocated and raised, otherwise the element
at the truncated index is returned. -/
def list_getitem (thisList : List Nat) (index : Int) : GetItemResult :=
  let idx : Nat := (index % (2 ^ 64 : Int)).toNat
  if h : idx < thisList.length then .value (thisList.get ⟨idx, h⟩)
  else .indexError "list index out of range"

/-! ## The elif-erasure used to state claim C8 -/

mutual
/-- Erase every `elifs` field in a statement, recursively.  Two ASTs are
"identical except for the elifs field of some IfStatement nodes" exactly when
their erasures coincide. -/
def stripStmt : AST → AST
  | .IfStatement c t _ f => .IfStatement c (stripStmts t) [] (stripElse f)
  | .WhileStatement e b => .WhileStatement e (stripStmts b)
  | .ForStatement n e b => .ForStatement n e (stripStmts b)
  | .DeclareFunction n ps b => .DeclareFunction n ps (stripStmts b)
  | .ClassDeclaration n b => .ClassDeclaration n (stripStmts b)
  | .Assign p e => .Assign p e
  | .StandaloneExpr e => .StandaloneExpr e
  | .Return e => .Return e
  | .Raise e => .Raise e
  | .Break => .Break

def stripStmts : List AST → List AST
  | [] => []
  | a :: rest => stripStmt a :: stripStmts rest

def stripElse : Option (List AST) → Option (List AST)
  | Option.none => Option.none
  | some l => some (stripStmts l)
end

/-! ## The name-resolution behaviour described by claim C5

`resolveSpec` below follows the claim's words rather than the source: seed
the slot list with the parameters in declaration order, give each first
occurrence of a stored identifier the next free slot, then rewrite loads of
already-slotted names to `LoadName` and loads of unknown names to a freshly
slotted `LoadGlobal`, and stores to `StoreName`/`StoreAttr` at the resolved
slot; the final slot list is the `names` array. -/

/-- One step of the claim's seeding pass: a stored identifier not yet slotted
gets the next free slot. -/
def storeStep (inst : Instruction) (ns : List String) : List String :=
  match inst with
  | .UnresolvedStoreName n => if ns.contains n then ns else ns ++ [n]
  | .UnresolvedStoreAttr n => if ns.contains n then ns else ns ++ [n]
  | _ => ns

/-- Slots described by the claim: parameters first (`ns` starts as the
parameter list in declaration order), then each first occurrence of a stored
identifier gets the next free slot. -/
def specSeedNames : List Instruction → List String → List String
  | [], ns => ns
  | inst :: rest, ns => specSeedNames rest (storeStep inst ns)

/-- One instruction rewrite as the claim words it. -/
def specResolveStep : Instruction → List String → Instruction × List String
  | .UnresolvedLoadName n, ns =>
      if ns.contains n then (.LoadName (ns.indexOf n), ns)
      else (.LoadGlobal ns.length, ns ++ [n])
  | .UnresolvedStoreName n, ns => (.StoreName (ns.indexOf n), ns)
  | .UnresolvedStoreAttr n, ns => (.StoreAttr (ns.indexOf n), ns)
  | i, ns => (i, ns)

def specResolveInstrs : List Instruction → List String →
    List Instruction × List String
  | [], ns => ([], ns)
  | i :: rest, ns =>
    let (i', ns') := specResolveStep i ns
    let (is, nsf) := specResolveInstrs rest ns'
    (i' :: is, nsf)

/-- Name resolution as described by the claim. -/
def resolveSpec (code : CodeObject) : CodeObject :=
  { code with
    instructions :=
      (specResolveInstrs code.instructions
        (specSeedNames code.instructions code.params)).1,
    names :=
      (specResolveInstrs code.instructions
        (specSeedNames code.instructions code.params)).2 }

/-- The slot list `ns` rendered as the association map the source builds:
entry `i` is `(ns[i], i)`. -/
def nmOfNamesFrom (k : Nat) : List String → NamesMap
  | [] => []
  | n :: rest => (n, k) :: nmOfNamesFrom (k + 1) rest

def nmOfNames (ns : List String) : NamesMap := nmOfNamesFrom 0 ns

/-- The identifier stored by an instruction, if it is a store. -/
def storeNameOf (inst : Instruction) : List String :=
  match inst with
  | .UnresolvedStoreName n => [n]
  | .UnresolvedStoreAttr n => [n]
  | _ => []

/-- The identifiers stored by `UnresolvedStoreName`/`UnresolvedStoreAttr`
instructions, in order. -/
def storeNames : List Instruction → List String
  | [] => []
  | inst :: rest => storeNameOf inst ++ storeNames rest

/-! ## Well-boundedness checkers for claim C7 -/

/-- Per-instruction bounds: jump targets at most `len`, constant indices below
`nconsts`, name slots below `nnames`. -/
def instrOk (len nconsts nnames : Nat) : Instruction → Bool
  | .JumpUnconditional t => decide (t ≤ len)
  | .JumpIfFalseAndPopStack t => decide (t ≤ len)
  | .ForIter t => decide (t ≤ len)
  | .LoadConst i => decide (i < nconsts)
  | .LoadName s => decide (s < nnames)
  | .StoreName s => decide (s < nnames)
  | .StoreAttr s => decide (s < nnames)
  | .LoadGlobal s => decide (s < nnames)
  | _ => true

def instrsOk (is : List Instruction) (len nconsts nnames : Nat) : Bool :=
  is.all (instrOk len nconsts nnames)

mutual
/-- A constant is well-bounded when any code object inside it is. -/
def constOk : Const → Bool
  | .codeObject is names _params consts _main _obj =>
      instrsOk is is.length consts.length names.length && constsOk consts
  | _ => true

def constsOk : List Const → Bool
  | [] => true
  | c :: cs => constOk c && constsOk cs
end

/-- Every jump target `t` satisfies `t ≤ instructions.len()`, every
`LoadConst(i)` has `i < consts.len()`, every name slot is `< names.len()`,
recursively including the code objects embedded in the constant table. -/
def codeOk (co : CodeObject) : Bool :=
  instrsOk co.instructions co.instructions.length co.consts.length co.names.length
    && constsOk co.consts

def programOk (p : Program) : Bool := p.code_objects.all codeOk

/-- Instructions as they exist before name resolution: jump targets at most
`bound`, constant indices below `nconsts`, and no resolved name instruction at
all. -/
def preOk (bound nconsts : Nat) : Instruction → Bool
  | .JumpUnconditional t => decide (t ≤ bound)
  | .JumpIfFalseAndPopStack t => decide (t ≤ bound)
  | .ForIter t => decide (t ≤ bound)
  | .LoadConst i => decide (i < nconsts)
  | .LoadName _ => false
  | .StoreName _ => false
  | .StoreAttr _ => false
  | .LoadGlobal _ => false
  | _ => true

/-- Some slot of `m` resolves to `s`. -/
def slotInMap (s : Nat) (m : NamesMap) : Prop := ∃ p ∈ m, p.2 = s

/-- Instructions as they exist right after name resolution, before the
`names` array length is known: name slots are values of the final map. -/
def postOk (b nc : Nat) (mf : NamesMap) : Instruction → Prop
  | .JumpUnconditional t => t ≤ b
  | .JumpIfFalseAndPopStack t => t ≤ b
  | .ForIter t => t ≤ b
  | .LoadConst i => i < nc
  | .LoadName s => slotInMap s mf
  | .StoreName s => slotInMap s mf
  | .StoreAttr s => slotInMap s mf
  | .LoadGlobal s => slotInMap s mf
  | _ => True

/-- Invariant of one expression-compilation step: the constant map is only
extended, its well-boundedness is preserved, and every emitted instruction is
jump-free, name-resolution-free and constant-bounded. -/
def ExprInv (m : ConstMap) (is : List Instruction) (m' : ConstMap) : Prop :=
  (∃ ext, m' = m ++ ext)
  ∧ (constsOk m = true → constsOk m' = true)
  ∧ ∀ (b : Nat), ∀ inst ∈ is, preOk b m'.length inst = true

/-- Invariant of the statement loop: `acc` grows into `res`, the constant map
is only extended and stays well-bounded, and pre-resolution bounds carry from
the accumulated prefix to the full result. -/
def StmtInv (acc : List Instruction) (offset : Nat) (m : ConstMap)
    (res : List Instruction) (m' : ConstMap) : Prop :=
  (∃ ext, m' = m ++ ext)
  ∧ (constsOk m = true → constsOk m' = true)
  ∧ acc.length ≤ res.length
  ∧ ((∀ inst ∈ acc, preOk (offset + acc.length) m.length inst = true) →
      ∀ inst ∈ res, preOk (offset + res.length) m'.length inst = true)

/-! ## Helper lemmas -/

theorem heapLookup_update_self (h : Heap) (a : Nat) (obj obj' : PyObject)
    (hl : heapLookup h a = some obj) :
    heapLookup (heapUpdate h a obj') a = some obj' := by
  induction h with
  | nil => simp [heapLookup] at hl
  | cons p rest ih =>
    obtain ⟨k, o⟩ := p
    by_cases hk : k = a
    · subst hk
      simp [heapUpdate, heapLookup]
    · simp [heapUpdate, heapLookup, hk] at hl ⊢
      exact ih hl

theorem heapLookup_update_other (h : Heap) (a b : Nat) (obj' : PyObject)
    (hb : b ≠ a) :
    heapLookup (heapUpdate h a obj') b = heapLookup h b := by
  induction h with
  | nil => simp [heapUpdate]
  | cons p rest ih =>
    obtain ⟨k, o⟩ := p
    by_cases hk : k = a
    · have hab : ¬ (a = b) := fun h2 => hb h2.symm
      simp [heapUpdate, heapLookup, hk, hab]
    · simp only [heapUpdate, beq_iff_eq, hk, if_false]
      by_cases hkb : k = b
      · subst hkb; simp [heapLookup]
      · simp [heapLookup, hkb, ih]

theorem eraseIdx_append_cons (l1 : List α) (a : α) (l2 : List α) :
    (l1 ++ a :: l2).eraseIdx l1.length = l1 ++ l2 := by
  induction l1 with
  | nil => simp [List.eraseIdx]
  | cons x xs ih => simp [List.eraseIdx, ih]

theorem resolveInstrs_length (params : List String) :
    ∀ (is : List Instruction) (m : NamesMap) (is' : List Instruction)
      (m' : NamesMap), resolveInstrs params is m = some (is', m') →
      is'.length = is.length := by
  intro is
  induction is with
  | nil =>
    intro m is' m' h
    simp only [resolveInstrs, Option.some.injEq, Prod.mk.injEq] at h
    rw [← h.1]
  | cons inst rest ih =>
    intro m is' m' h
    unfold resolveInstrs at h
    split at h
    · rename_i inst1 m1 _
      split at h
      · rename_i tl mf heq
        simp only [Option.some.injEq, Prod.mk.injEq] at h
        rw [← h.1]
        simp [ih _ _ _ heq]
      · cases h
    · cases h

theorem make_code_object_ne_nil (instrs : List Instruction) (name : String)
    (m : ConstMap) (co : CodeObject) (m' : ConstMap)
    (h : make_code_object instrs name m true = some (co, m')) :
    co.instructions ≠ [] := by
  unfold make_code_object at h
  rw [if_pos rfl] at h
  split at h
  · cases h
  · rename_i hg
    simp only [Option.some.injEq, Prod.mk.injEq] at h
    obtain ⟨h1, _⟩ := h
    subst h1
    show instrs ≠ []
    intro hnil
    rw [hnil] at hg
    cases hg
  · split at h
    · simp only [Option.some.injEq, Prod.mk.injEq] at h
      obtain ⟨h1, _⟩ := h
      subst h1
      show instrs ++ _ ≠ []
      simp
    · cases h

theorem resolve_preserves (c : CodeObject) (r : CodeObject)
    (h : resolve_loads_stores c = some r) :
    r.instructions.length = c.instructions.length
    ∧ r.consts = c.consts ∧ r.params = c.params ∧ r.main = c.main := by
  unfold resolve_loads_stores at h
  split at h
  · rename_i newInstructions m2 heq
    split at h
    · simp only [Option.some.injEq] at h
      rw [← h]
      refine ⟨?_, rfl, rfl, rfl⟩
      exact resolveInstrs_length _ _ _ _ _ heq
    · cases h
  · cases h

/-! ### Unfolding equations for the statement compiler

Lean does not generate equational theorems for this mutual structural
recursion over the nested `AST` type, but each defining equation holds by
`rfl`; they are stated here once and used by the proofs below. -/

theorem compile_stmts_nil (acc : List Instruction) (offset : Nat)
    (qual : Option String) (m : ConstMap) :
    compile_stmts [] acc offset qual m = some (acc, m) := rfl

theorem compile_stmts_cons (a : AST) (l : List AST) (acc : List Instruction)
    (offset : Nat) (qual : Option String) (m : ConstMap) :
    compile_stmts (a :: l) acc offset qual m =
      (match compile_stmt a acc offset qual m with
       | some (acc', m') => compile_stmts l acc' offset qual m'
       | Option.none => Option.none) := rfl

theorem compile_stmt_assign (path : List String) (e : Expr)
    (acc : List Instruction) (offset : Nat) (qual : Option String) (m : ConstMap) :
    compile_stmt (.Assign path e) acc offset qual m =
      (match compile_expr e m with
       | some (eis, m1) =>
         (match path with
          | [single] => some (acc ++ eis ++ [Instruction.UnresolvedStoreName single], m1)
          | _ => some (acc ++ eis ++ generate_assign_path path true, m1))
       | Option.none => Option.none) := rfl

theorem compile_stmt_standalone (e : Expr) (acc : List Instruction)
    (offset : Nat) (qual : Option String) (m : ConstMap) :
    compile_stmt (.StandaloneExpr e) acc offset qual m =
      (match compile_expr e m with
       | some (eis, m1) => some (acc ++ eis ++ [Instruction.PopTop], m1)
       | Option.none => Option.none) := rfl

theorem compile_stmt_return_some (e : Expr) (acc : List Instruction)
    (offset : Nat) (qual : Option String) (m : ConstMap) :
    compile_stmt (.Return (some e)) acc offset qual m =
      (match compile_expr e m with
       | some (eis, m1) => some (acc ++ eis ++ [Instruction.ReturnValue], m1)
       | Option.none => Option.none) := rfl

theorem compile_stmt_return_none (acc : List Instruction)
    (offset : Nat) (qual : Option String) (m : ConstMap) :
    compile_stmt (.Return Option.none) acc offset qual m =
      (match cmIdxOf m .noneVal with
       | some i => some (acc ++ [Instruction.LoadConst i, Instruction.ReturnValue], m)
       | Option.none => Option.none) := rfl

theorem compile_stmt_class (className : String) (body : List AST)
    (acc : List Instruction) (offset : Nat) (qual : Option String) (m : ConstMap) :
    compile_stmt (.ClassDeclaration className body) acc offset qual m =
      (match compile_stmts body [] 0 (some (build_fully_qualified_name qual className)) [] with
       | some (bodyInstrs, newMap) =>
         (match make_code_object bodyInstrs (build_fully_qualified_name qual className)
             newMap true with
          | some (classDeclFunction, _) =>
            (match resolve_loads_stores { classDeclFunction with main := false } with
             | some resolved =>
               (match process_constval (Const.ofCode resolved) m with
                | (codeIdx, m1) =>
                  (match process_constval (.str (build_fully_qualified_name qual className)) m1 with
                   | (nameIdx, m2) =>
                     some (acc ++ codeIdx ++ nameIdx ++
                       [Instruction.MakeClass,
                        Instruction.UnresolvedStoreName className], m2)))
             | Option.none => Option.none)
          | Option.none => Option.none)
       | Option.none => Option.none) := rfl

theorem compile_stmt_fn (functionName : String)
    (parameters : List FunctionParameter) (body : List AST)
    (acc : List Instruction) (offset : Nat) (qual : Option String) (m : ConstMap) :
    compile_stmt (.DeclareFunction functionName parameters body) acc offset qual m =
      (match compile_stmts body [] 0 (some (build_fully_qualified_name qual functionName)) [] with
       | some (bodyInstrs, newMap) =>
         (match make_code_object bodyInstrs (build_fully_qualified_name qual functionName)
             newMap true with
          | some (funcCo, _) =>
            (match compileDefaults parameters m with
             | some (defaultInstructions, numDefaults, m1) =>
               (match resolve_loads_stores { funcCo with
                   main := false,
                   params := parameters.map (fun x =>
                     match x with
                     | .Simple n => n
                     | .DefaultValue n _ => n) } with
                | some resolved =>
                  (match process_constval (Const.ofCode resolved) m1 with
                   | (codeIdx, m2) =>
                     (match process_constval (.str (build_fully_qualified_name qual functionName)) m2 with
                      | (nameIdx, m3) =>
                        some (acc ++ defaultInstructions ++
                          [Instruction.BuildList numDefaults] ++ codeIdx ++ nameIdx ++
                          [Instruction.MakeFunction (numDefaults > 0),
                           Instruction.UnresolvedStoreName functionName], m3)))
                | Option.none => Option.none)
             | Option.none => Option.none)
          | Option.none => Option.none)
       | Option.none => Option.none) := rfl

theorem compile_stmt_for (itemName : String) (listExpression : Expr)
    (body : List AST) (acc : List Instruction) (offset : Nat)
    (qual : Option String) (m : ConstMap) :
    compile_stmt (.ForStatement itemName listExpression body) acc offset qual m =
      (match compile_expr listExpression m with
       | some (listIs, m1) =>
         (match compile_stmts body [] 0 qual m1 with
          | some (compiledBody, m2) =>
            some ((acc ++ listIs ++
                [Instruction.LoadAttr "__iter__", Instruction.CallFunction 0]) ++
              (Instruction.ForIter
                  ((acc ++ listIs ++ [Instruction.LoadAttr "__iter__",
                      Instruction.CallFunction 0]).length + offset +
                    (Instruction.UnresolvedStoreName itemName :: compiledBody).length + 2) ::
                (Instruction.UnresolvedStoreName itemName :: compiledBody).map (fun instr =>
                  match instr with
                  | .UnresolvedBreak =>
                      Instruction.JumpUnconditional
                        ((acc ++ listIs ++ [Instruction.LoadAttr "__iter__",
                            Instruction.CallFunction 0]).length + offset +
                          (Instruction.UnresolvedStoreName itemName :: compiledBody).length + 2)
                  | _ => instr)) ++
              [Instruction.JumpUnconditional
                ((acc ++ listIs ++ [Instruction.LoadAttr "__iter__",
                    Instruction.CallFunction 0]).length + offset)], m2)
          | Option.none => Option.none)
       | Option.none => Option.none) := rfl

theorem compile_stmt_if_none (cond : Expr) (trueStmts : List AST)
    (elifs : List (Expr × List AST))
    (acc : List Instruction) (offset : Nat) (qual : Option String) (m : ConstMap) :
    compile_stmt (.IfStatement cond trueStmts elifs Option.none) acc offset qual m =
      (match compile_expr cond m with
       | some (condIs, m1) =>
         (match compile_stmts trueStmts [] (offset + (acc ++ condIs).length + 1) qual m1 with
          | some (trueIs, m2) =>
            some ((acc ++ condIs) ++
              [Instruction.JumpIfFalseAndPopStack
                (offset + (acc ++ condIs).length + 1 + trueIs.length)] ++ trueIs, m2)
          | Option.none => Option.none)
       | Option.none => Option.none) := rfl

theorem compile_stmt_if_some (cond : Expr) (trueStmts : List AST)
    (elifs : List (Expr × List AST)) (elseAst : List AST)
    (acc : List Instruction) (offset : Nat) (qual : Option String) (m : ConstMap) :
    compile_stmt (.IfStatement cond trueStmts elifs (some elseAst)) acc offset qual m =
      (match compile_expr cond m with
       | some (condIs, m1) =>
         (match compile_stmts trueStmts [] (offset + (acc ++ condIs).length + 1) qual m1 with
          | some (trueIs, m2) =>
            (match compile_stmts elseAst []
                (offset + (acc ++ condIs).length + 1 + trueIs.length + 1) qual m2 with
             | some (falseIs, m3) =>
               some (((acc ++ condIs) ++
                 [Instruction.JumpIfFalseAndPopStack
                   (offset + (acc ++ condIs).length + 1 + trueIs.length + 1)] ++ trueIs) ++
                 [Instruction.JumpUnconditional
                   (offset + (acc ++ condIs).length + 1 + trueIs.length + 1 + falseIs.length)] ++
                 falseIs, m3)
             | Option.none => Option.none)
          | Option.none => Option.none)
       | Option.none => Option.none) := rfl

theorem compile_stmt_while (e : Expr) (body : List AST) (acc : List Instruction)
    (offset : Nat) (qual : Option String) (m : ConstMap) :
    compile_stmt (.WhileStatement e body) acc offset qual m =
      (match compile_expr e m with
       | some (exprIs, m1) =>
         (match compile_stmts body [] (acc.length + exprIs.length + 1) qual m1 with
          | some (bodyIs, m2) =>
            some (acc ++ exprIs ++
              [Instruction.JumpIfFalseAndPopStack
                (acc.length + exprIs.length + 1 + bodyIs.length + 1)] ++
              bodyIs.map (fun instr =>
                match instr with
                | .UnresolvedBreak =>
                    Instruction.JumpUnconditional
                      (acc.length + exprIs.length + 1 + bodyIs.length + 1)
                | _ => instr) ++
              [Instruction.JumpUnconditional (acc.length + offset)], m2)
          | Option.none => Option.none)
       | Option.none => Option.none) := rfl

theorem compile_stmt_raise (e : Expr) (acc : List Instruction) (offset : Nat)
    (qual : Option String) (m : ConstMap) :
    compile_stmt (.Raise e) acc offset qual m =
      (match compile_expr e m with
       | some (eis, m1) =>
         (match cmIdxOf (internNone m1) .noneVal with
          | some i => some (acc ++ eis ++
              [Instruction.Raise, Instruction.LoadConst i, Instruction.ReturnValue],
              internNone m1)
          | Option.none => Option.none)
       | Option.none => Option.none) := rfl

theorem compile_stmt_break (acc : List Instruction) (offset : Nat)
    (qual : Option String) (m : ConstMap) :
    compile_stmt .Break acc offset qual m
      = some (acc ++ [Instruction.UnresolvedBreak], m) := rfl

/-! ### Correspondence between the `BTreeMap` model and the claim's slot list
(for claim C5) -/

theorem nmOfNamesFrom_length (k : Nat) (ns : List String) :
    (nmOfNamesFrom k ns).length = ns.length := by
  induction ns generalizing k with
  | nil => rfl
  | cons n rest ih => simp [nmOfNamesFrom, ih]

theorem nmLookup_nmOfNamesFrom_mem (k : Nat) (ns : List String) (n : String)
    (h : n ∈ ns) :
    nmLookup (nmOfNamesFrom k ns) n = some (k + ns.indexOf n) := by
  induction ns generalizing k with
  | nil => cases h
  | cons x rest ih =>
    by_cases hx : x = n
    · subst hx
      simp [nmOfNamesFrom, nmLookup, List.indexOf_cons]
    · have hmem : n ∈ rest := by
        cases h with
        | head => exact absurd rfl hx
        | tail _ h2 => exact h2
      have hne : (x == n) = false := beq_false_of_ne hx
      have hne2 : (n == x) = false := beq_false_of_ne (fun h2 => hx h2.symm)
      simp only [nmOfNamesFrom, nmLookup, hne, Bool.false_eq_true, if_false,
        ih (k + 1) hmem, List.indexOf_cons, hne2, cond_false, Option.some.injEq]
      omega

theorem nmLookup_nmOfNamesFrom_not_mem (k : Nat) (ns : List String) (n : String)
    (h : n ∉ ns) :
    nmLookup (nmOfNamesFrom k ns) n = Option.none := by
  induction ns generalizing k with
  | nil => rfl
  | cons x rest ih =>
    have hx : ¬ (x = n) := fun h2 => h (h2 ▸ List.mem_cons_self x rest)
    have hne : (x == n) = false := beq_false_of_ne hx
    simp only [nmOfNamesFrom, nmLookup, hne, if_false]
    exact ih (k + 1) (fun h2 => h (List.mem_cons_of_mem x h2))

theorem nmInsert_enum (ns : List String) (n : String) (h : n ∉ ns) :
    nmInsert (nmOfNames ns) n (nmOfNames ns).length = nmOfNames (ns ++ [n]) := by
  unfold nmOfNames
  rw [nmOfNamesFrom_length 0 ns]
  have haux : ∀ (k : Nat), nmInsert (nmOfNamesFrom k ns) n (k + ns.length)
      = nmOfNamesFrom k (ns ++ [n]) := by
    intro k
    induction ns generalizing k with
    | nil => simp [nmOfNamesFrom, nmInsert]
    | cons x rest ih =>
      have hx : ¬ (x = n) := fun h2 => h (h2 ▸ List.mem_cons_self x rest)
      have hne : (x == n) = false := beq_false_of_ne hx
      have hrec := ih (fun h2 => h (List.mem_cons_of_mem x h2)) (k + 1)
      simp only [List.cons_append, nmOfNamesFrom, nmInsert, hne,
        Bool.false_eq_true, if_false, List.length_cons]
      have harith : k + (rest.length + 1) = k + 1 + rest.length := by omega
      rw [harith, hrec]
      rfl
  have := haux 0
  rw [Nat.zero_add] at this
  exact this

theorem seedParams_aux (l : List String) :
    ∀ (ns : List String), l.Nodup → (∀ x ∈ l, x ∉ ns) →
    List.foldl (fun m name => nmInsert m name m.length) (nmOfNames ns) l
      = nmOfNames (ns ++ l) := by
  induction l with
  | nil => intro ns _ _; simp
  | cons x xs ih =>
    intro ns hnd hdisj
    have hx : x ∉ ns := hdisj x (List.mem_cons_self x xs)
    simp only [List.foldl_cons]
    rw [nmInsert_enum ns x hx]
    have hnd' : xs.Nodup := (List.nodup_cons.mp hnd).2
    have hdisj' : ∀ y ∈ xs, y ∉ ns ++ [x] := by
      intro y hy
      simp only [List.mem_append, List.mem_singleton]
      rintro (h1 | h2)
      · exact hdisj y (List.mem_cons_of_mem x hy) h1
      · exact (List.nodup_cons.mp hnd).1 (h2 ▸ hy)
    rw [ih (ns ++ [x]) hnd' hdisj']
    simp

theorem seedParams_eq (params : List String) (h : params.Nodup) :
    seedParams params = nmOfNames params :=
  seedParams_aux params [] h (by simp)

theorem contains_eq_isSome_lookup (ns : List String) (n : String) :
    (nmLookup (nmOfNames ns) n).isSome = ns.contains n := by
  unfold nmOfNames
  by_cases h : n ∈ ns
  · rw [nmLookup_nmOfNamesFrom_mem 0 ns n h]
    have hc : ns.contains n = true := List.elem_iff.mpr h
    rw [hc]
    rfl
  · rw [nmLookup_nmOfNamesFrom_not_mem 0 ns n h]
    have hc : ns.contains n = false :=
      Bool.eq_false_iff.mpr (fun h2 => h (List.elem_iff.mp h2))
    rw [hc]
    rfl

theorem collectStores_eq (instrs : List Instruction) :
    ∀ ns, collectStores instrs (nmOfNames ns) = nmOfNames (specSeedNames instrs ns) := by
  induction instrs with
  | nil => intro ns; rfl
  | cons inst rest ih =>
    intro ns
    have hstep : ∀ (n : String),
        (if (nmLookup (nmOfNames ns) n).isSome then nmOfNames ns
         else nmInsert (nmOfNames ns) n (nmOfNames ns).length)
        = nmOfNames (if ns.contains n then ns else ns ++ [n]) := by
      intro n
      rw [contains_eq_isSome_lookup]
      by_cases h : n ∈ ns
      · rw [if_pos (List.elem_iff.mpr h), if_pos (List.elem_iff.mpr h)]
      · have hc : ns.contains n = false := by
          rw [← Bool.not_eq_true]
          intro h2
          exact h (List.elem_iff.mp h2)
        rw [hc]
        simp only [Bool.false_eq_true, if_false]
        exact nmInsert_enum ns n h
    cases inst with
    | UnresolvedStoreName n =>
      show collectStores rest (if (nmLookup (nmOfNames ns) n).isSome then nmOfNames ns
        else nmInsert (nmOfNames ns) n (nmOfNames ns).length) = _
      rw [hstep n, ih]
      rfl
    | UnresolvedStoreAttr n =>
      show collectStores rest (if (nmLookup (nmOfNames ns) n).isSome then nmOfNames ns
        else nmInsert (nmOfNames ns) n (nmOfNames ns).length) = _
      rw [hstep n, ih]
      rfl
    | LoadConst i => exact ih ns
    | LoadAttr s => exact ih ns
    | CallFunction k => exact ih ns
    | BinaryAdd => exact ih ns
    | BinaryModulus => exact ih ns
    | BinarySubtract => exact ih ns
    | BinaryMultiply => exact ih ns
    | BinaryTrueDivision => exact ih ns
    | CompareLessThan => exact ih ns
    | CompareGreaterThan => exact ih ns
    | CompareEquals => exact ih ns
    | CompareGreaterEquals => exact ih ns
    | CompareLessEquals => exact ih ns
    | CompareNotEquals => exact ih ns
    | IndexAccess => exact ih ns
    | BuildList k => exact ih ns
    | UnresolvedLoadName s => exact ih ns
    | LoadName s => exact ih ns
    | StoreName s => exact ih ns
    | StoreAttr s => exact ih ns
    | LoadGlobal s => exact ih ns
    | MakeFunction b => exact ih ns
    | MakeClass => exact ih ns
    | ForIter t => exact ih ns
    | JumpUnconditional t => exact ih ns
    | JumpIfFalseAndPopStack t => exact ih ns
    | Raise => exact ih ns
    | ReturnValue => exact ih ns
    | PopTop => exact ih ns
    | UnresolvedBreak => exact ih ns

theorem mem_storeStep (inst : Instruction) (ns : List String) (x : String)
    (h : x ∈ ns) : x ∈ storeStep inst ns := by
  unfold storeStep
  split
  · split
    · exact h
    · exact List.mem_append_left _ h
  · split
    · exact h
    · exact List.mem_append_left _ h
  · exact h

theorem mem_specSeedNames_mono (instrs : List Instruction) :
    ∀ ns (x : String), x ∈ ns → x ∈ specSeedNames instrs ns := by
  induction instrs with
  | nil => intro ns x h; exact h
  | cons inst rest ih =>
    intro ns x h
    exact ih (storeStep inst ns) x (mem_storeStep inst ns x h)

theorem storeNameOf_mem_storeStep (inst : Instruction) (ns : List String)
    (n : String) (h : n ∈ storeNameOf inst) : n ∈ storeStep inst ns := by
  unfold storeNameOf at h
  unfold storeStep
  split
  · rename_i n' _
    simp only [List.mem_singleton] at h
    subst h
    split
    · rename_i hc
      exact List.elem_iff.mp hc
    · exact List.mem_append_right _ (List.mem_singleton_self _)
  · rename_i n' _
    simp only [List.mem_singleton] at h
    subst h
    split
    · rename_i hc
      exact List.elem_iff.mp hc
    · exact List.mem_append_right _ (List.mem_singleton_self _)
  · rename_i hne1 hne2
    cases inst <;> simp_all [storeNameOf]

theorem storeNames_subset_specSeedNames (instrs : List Instruction) :
    ∀ ns (n : String), n ∈ storeNames instrs → n ∈ specSeedNames instrs ns := by
  induction instrs with
  | nil => intro ns n h; cases h
  | cons inst rest ih =>
    intro ns n h
    rw [show storeNames (inst :: rest) = storeNameOf inst ++ storeNames rest from rfl,
      List.mem_append] at h
    cases h with
    | inl h1 =>
      exact mem_specSeedNames_mono rest (storeStep inst ns) n
        (storeNameOf_mem_storeStep inst ns n h1)
    | inr h2 => exact ih (storeStep inst ns) n h2

theorem mem_specResolveStep (inst : Instruction) (ns : List String) (x : String)
    (h : x ∈ ns) : x ∈ (specResolveStep inst ns).2 := by
  unfold specResolveStep
  split
  · split
    · exact h
    · exact List.mem_append_left _ h
  · exact h
  · exact h
  · exact h

/-- The single-instruction rewrite of the source agrees with the claim's
rewrite, read through the map↔slot-list correspondence, whenever every
parameter is already slotted and any stored identifier is already slotted. -/
theorem resolveOne_spec (params : List String) (inst : Instruction)
    (ns : List String) (hp : ∀ p ∈ params, p ∈ ns)
    (hs : ∀ n ∈ storeNameOf inst, n ∈ ns) :
    resolveOne params inst (nmOfNames ns)
      = some ((specResolveStep inst ns).1, nmOfNames ((specResolveStep inst ns).2)) := by
  cases inst with
  | UnresolvedLoadName n =>
    show (match nmLookup (nmOfNames ns) n with
      | some idx => some (Instruction.LoadName idx, nmOfNames ns)
      | Option.none =>
        if params.contains n then
          some (Instruction.LoadName (nmOfNames ns).length,
            nmInsert (nmOfNames ns) n (nmOfNames ns).length)
        else
          some (Instruction.LoadGlobal (nmOfNames ns).length,
            nmInsert (nmOfNames ns) n (nmOfNames ns).length)) = _
    by_cases h : n ∈ ns
    · rw [show nmLookup (nmOfNames ns) n = some (0 + ns.indexOf n) from
        nmLookup_nmOfNamesFrom_mem 0 ns n h]
      have hc : ns.contains n = true := List.elem_iff.mpr h
      simp only [specResolveStep, hc, if_true, Nat.zero_add]
    · rw [show nmLookup (nmOfNames ns) n = Option.none from
        nmLookup_nmOfNamesFrom_not_mem 0 ns n h]
      have hc : ns.contains n = false :=
        Bool.eq_false_iff.mpr (fun h2 => h (List.elem_iff.mp h2))
      have hpc : params.contains n = false :=
        Bool.eq_false_iff.mpr (fun h2 => h (hp n (List.elem_iff.mp h2)))
      simp only [specResolveStep, hc, hpc, Bool.false_eq_true, if_false]
      rw [show (nmOfNames ns).length = ns.length from nmOfNamesFrom_length 0 ns,
        show nmInsert (nmOfNames ns) n ns.length = nmOfNames (ns ++ [n]) by
          rw [← nmOfNamesFrom_length 0 ns]
          exact nmInsert_enum ns n h]
  | UnresolvedStoreName n =>
    have h : n ∈ ns := hs n (List.mem_singleton_self n)
    show (match nmLookup (nmOfNames ns) n with
      | some idx => some (Instruction.StoreName idx, nmOfNames ns)
      | Option.none => Option.none) = _
    rw [show nmLookup (nmOfNames ns) n = some (0 + ns.indexOf n) from
      nmLookup_nmOfNamesFrom_mem 0 ns n h]
    simp only [specResolveStep, Nat.zero_add]
  | UnresolvedStoreAttr n =>
    have h : n ∈ ns := hs n (List.mem_singleton_self n)
    show (match nmLookup (nmOfNames ns) n with
      | some idx => some (Instruction.StoreAttr idx, nmOfNames ns)
      | Option.none => Option.none) = _
    rw [show nmLookup (nmOfNames ns) n = some (0 + ns.indexOf n) from
      nmLookup_nmOfNamesFrom_mem 0 ns n h]
    simp only [specResolveStep, Nat.zero_add]
  | LoadConst i => rfl
  | LoadAttr s => rfl
  | CallFunction k => rfl
  | BinaryAdd => rfl
  | BinaryModulus => rfl
  | BinarySubtract => rfl
  | BinaryMultiply => rfl
  | BinaryTrueDivision => rfl
  | CompareLessThan => rfl
  | CompareGreaterThan => rfl
  | CompareEquals => rfl
  | CompareGreaterEquals => rfl
  | CompareLessEquals => rfl
  | CompareNotEquals => rfl
  | IndexAccess => rfl
  | BuildList k => rfl
  | LoadName s => rfl
  | StoreName s => rfl
  | StoreAttr s => rfl
  | LoadGlobal s => rfl
  | MakeFunction b => rfl
  | MakeClass => rfl
  | ForIter t => rfl
  | JumpUnconditional t => rfl
  | JumpIfFalseAndPopStack t => rfl
  | Raise => rfl
  | ReturnValue => rfl
  | PopTop => rfl
  | UnresolvedBreak => rfl

theorem resolveInstrs_spec (params : List String) (instrs : List Instruction) :
    ∀ ns, (∀ p ∈ params, p ∈ ns) → (∀ n ∈ storeNames instrs, n ∈ ns) →
    resolveInstrs params instrs (nmOfNames ns)
      = some ((specResolveInstrs instrs ns).1,
          nmOfNames ((specResolveInstrs instrs ns).2)) := by
  induction instrs with
  | nil => intro ns _ _; rfl
  | cons inst rest ih =>
    intro ns hp hs
    have hs1 : ∀ n ∈ storeNameOf inst, n ∈ ns := by
      intro n hn
      exact hs n (by
        rw [show storeNames (inst :: rest) = storeNameOf inst ++ storeNames rest from rfl]
        exact List.mem_append_left _ hn)
    have hs2 : ∀ n ∈ storeNames rest, n ∈ (specResolveStep inst ns).2 := by
      intro n hn
      exact mem_specResolveStep inst ns n (hs n (by
        rw [show storeNames (inst :: rest) = storeNameOf inst ++ storeNames rest from rfl]
        exact List.mem_append_right _ hn))
    have hp2 : ∀ p ∈ params, p ∈ (specResolveStep inst ns).2 :=
      fun p hpp => mem_specResolveStep inst ns p (hp p hpp)
    show (match resolveOne params inst (nmOfNames ns) with
      | some (inst', m') =>
        (match resolveInstrs params rest m' with
         | some (is, mf) => some (inst' :: is, mf)
         | Option.none => Option.none)
      | Option.none => Option.none) = _
    rw [resolveOne_spec params inst ns hp hs1]
    show (match resolveInstrs params rest (nmOfNames (specResolveStep inst ns).2) with
      | some (is, mf) => some ((specResolveStep inst ns).1 :: is, mf)
      | Option.none => Option.none) = _
    rw [ih (specResolveStep inst ns).2 hp2 hs2]
    show some ((specResolveStep inst ns).1 ::
        (specResolveInstrs rest (specResolveStep inst ns).2).1,
        nmOfNames (specResolveInstrs rest (specResolveStep inst ns).2).2) = _
    rw [show specResolveInstrs (inst :: rest) ns
      = ((specResolveStep inst ns).1 ::
          (specResolveInstrs rest (specResolveStep inst ns).2).1,
         (specResolveInstrs rest (specResolveStep inst ns).2).2) from rfl]

theorem insertByKey_perm (p : String × Nat) (l : NamesMap) :
    (insertByKey p l).Perm (p :: l) := by
  induction l with
  | nil => exact List.Perm.refl _
  | cons q qs ih =>
    unfold insertByKey
    by_cases h : p.1 < q.1
    · rw [if_pos h]
    · rw [if_neg h]
      exact (List.Perm.cons q ih).trans (List.Perm.swap p q qs)

theorem sortByKey_perm (l : NamesMap) : (sortByKey l).Perm l := by
  induction l with
  | nil => exact List.Perm.refl _
  | cons p ps ih =>
    exact (insertByKey_perm p (sortByKey ps)).trans (List.Perm.cons p ih)

theorem mem_nmOfNamesFrom (ns : List String) :
    ∀ (k : Nat) (a : String) (v : Nat),
    (a, v) ∈ nmOfNamesFrom k ns ↔ (k ≤ v ∧ ns[v - k]? = some a) := by
  induction ns with
  | nil => intro k a v; simp [nmOfNamesFrom]
  | cons x rest ih =>
    intro k a v
    simp only [nmOfNamesFrom, List.mem_cons, Prod.mk.injEq, ih (k + 1)]
    constructor
    · rintro (⟨ha, hv⟩ | ⟨h1, h2⟩)
      · subst ha
        subst hv
        simp
      · refine ⟨by omega, ?_⟩
        have hvk : v - k = (v - (k + 1)) + 1 := by omega
        rw [hvk]
        simpa using h2
    · rintro ⟨h1, h2⟩
      by_cases hv : v = k
      · subst hv
        simp only [Nat.sub_self] at h2
        simp only [List.getElem?_cons_zero, Option.some.injEq] at h2
        exact Or.inl ⟨h2.symm, rfl⟩
      · right
        refine ⟨by omega, ?_⟩
        have hvk : v - k = (v - (k + 1)) + 1 := by omega
        rw [hvk] at h2
        simpa using h2

theorem mem_nmOfNames (ns : List String) (a : String) (v : Nat) :
    (a, v) ∈ nmOfNames ns ↔ ns[v]? = some a := by
  unfold nmOfNames
  rw [mem_nmOfNamesFrom ns 0 a v]
  simp

theorem buildIndicesNames_isSome (entries : NamesMap) :
    ∀ (arr : List String), (∀ p ∈ entries, p.2 < arr.length) →
    ∃ out, buildIndicesNames entries arr = some out := by
  induction entries with
  | nil => intro arr _; exact ⟨arr, rfl⟩
  | cons p rest ih =>
    intro arr hb
    obtain ⟨k, v⟩ := p
    have hv : v < arr.length := hb (k, v) (List.mem_cons_self _ _)
    obtain ⟨out, hout⟩ := ih (arr.set v k) (by
      intro q hq
      rw [List.length_set]
      exact hb q (List.mem_cons_of_mem _ hq))
    exact ⟨out, by simp only [buildIndicesNames, hv, if_pos]; exact hout⟩

theorem buildIndicesNames_length (entries : NamesMap) :
    ∀ (arr : List String) (out : List String),
    buildIndicesNames entries arr = some out → out.length = arr.length := by
  induction entries with
  | nil =>
    intro arr out h
    simp only [buildIndicesNames, Option.some.injEq] at h
    rw [← h]
  | cons p rest ih =>
    intro arr out h
    obtain ⟨k, v⟩ := p
    unfold buildIndicesNames at h
    split at h
    · have := ih (arr.set v k) out h
      rwa [List.length_set] at this
    · cases h

theorem buildIndicesNames_not_mem (entries : NamesMap) :
    ∀ (arr : List String) (out : List String) (j : Nat),
    buildIndicesNames entries arr = some out → (∀ p ∈ entries, p.2 ≠ j) →
    out[j]? = arr[j]? := by
  induction entries with
  | nil =>
    intro arr out j h _
    simp only [buildIndicesNames, Option.some.injEq] at h
    rw [← h]
  | cons p rest ih =>
    intro arr out j h hne
    obtain ⟨k, v⟩ := p
    unfold buildIndicesNames at h
    split at h
    · have hvj : v ≠ j := hne (k, v) (List.mem_cons_self _ _)
      rw [ih (arr.set v k) out j h (fun q hq => hne q (List.mem_cons_of_mem _ hq)),
        List.getElem?_set_ne hvj]
    · cases h

theorem buildIndicesNames_mem (entries : NamesMap) :
    ∀ (arr : List String) (out : List String) (a : String) (j : Nat),
    buildIndicesNames entries arr = some out → (a, j) ∈ entries →
    (∀ p ∈ entries, p.2 = j → p.1 = a) → out[j]? = some a := by
  induction entries with
  | nil => intro arr out a j _ hmem _; cases hmem
  | cons p rest ih =>
    intro arr out a j h hmem huniq
    obtain ⟨k, v⟩ := p
    unfold buildIndicesNames at h
    split at h
    · rename_i hlt
      by_cases hrest : ∃ q ∈ rest, q.2 = j
      · obtain ⟨q, hq, hqj⟩ := hrest
        have hq1 : q.1 = a := huniq q (List.mem_cons_of_mem _ hq) hqj
        have hmem' : (a, j) ∈ rest := by
          have : q = (a, j) := by
            obtain ⟨q1, q2⟩ := q
            simp only at hq1 hqj
            rw [hq1, hqj]
          rw [← this]
          exact hq
        exact ih (arr.set v k) out a j h hmem'
          (fun q2 hq2 hqj2 => huniq q2 (List.mem_cons_of_mem _ hq2) hqj2)
      · push_neg at hrest
        have hhead : (a, j) = (k, v) := by
          cases hmem with
          | head => rfl
          | tail _ htl => exact absurd rfl (hrest (a, j) htl)
        have hk : a = k := (Prod.mk.injEq .. ▸ hhead).1
        have hv : j = v := (Prod.mk.injEq .. ▸ hhead).2
        rw [buildIndicesNames_not_mem rest (arr.set v k) out j h hrest]
        subst hk
        subst hv
        exact List.getElem?_set_self hlt
    · cases h

/-! ### Bounds plumbing for claim C7 -/

theorem constsOk_nil : constsOk [] = true := rfl

theorem constsOk_cons (c : Const) (cs : List Const) :
    constsOk (c :: cs) = (constOk c && constsOk cs) := rfl

theorem constOk_codeObject (is : List Instruction) (ns ps : List String)
    (cs : List Const) (mn : Bool) (on' : String) :
    constOk (.codeObject is ns ps cs mn on')
      = (instrsOk is is.length cs.length ns.length && constsOk cs) := rfl

theorem constsOk_append (a b : List Const) :
    constsOk (a ++ b) = (constsOk a && constsOk b) := by
  induction a with
  | nil => simp [constsOk_nil]
  | cons c cs ih => simp [constsOk_cons, ih, Bool.and_assoc]

theorem preOk_mono {b b' nc nc' : Nat} (i : Instruction) (hb : b ≤ b')
    (hn : nc ≤ nc') (h : preOk b nc i = true) : preOk b' nc' i = true := by
  cases i <;> simp_all [preOk] <;> omega

theorem preOk_all_mono {b b' nc nc' : Nat} (xs : List Instruction) (hb : b ≤ b')
    (hn : nc ≤ nc') (h : ∀ inst ∈ xs, preOk b nc inst = true) :
    ∀ inst ∈ xs, preOk b' nc' inst = true :=
  fun i hi => preOk_mono i hb hn (h i hi)

theorem preOk_all_append {b nc : Nat} {xs ys : List Instruction}
    (hx : ∀ inst ∈ xs, preOk b nc inst = true)
    (hy : ∀ inst ∈ ys, preOk b nc inst = true) :
    ∀ inst ∈ xs ++ ys, preOk b nc inst = true := by
  intro i hi
  rcases List.mem_append.mp hi with h1 | h2
  · exact hx i h1
  · exact hy i h2

theorem instrOk_of_preOk {b nc nn : Nat} (i : Instruction)
    (h : preOk b nc i = true) : instrOk b nc nn i = true := by
  cases i <;> simp_all [preOk, instrOk]

theorem cmIdxOf_lt (m : ConstMap) (c : Const) :
    ∀ i, cmIdxOf m c = some i → i < m.length := by
  induction m with
  | nil => intro i h; cases h
  | cons d ds ih =>
    intro i h
    unfold cmIdxOf at h
    split at h
    · simp only [Option.some.injEq] at h
      rw [← h]
      simp
    · cases hh : cmIdxOf ds c with
      | none => rw [hh] at h; cases h
      | some j =>
        rw [hh] at h
        simp only [Option.map_some', Option.some.injEq] at h
        have := ih j hh
        rw [← h]
        simp only [List.length_cons]
        omega

theorem cmIdxOf_append_of_none (m : ConstMap) (c : Const)
    (h : cmIdxOf m c = Option.none) (l : ConstMap) :
    cmIdxOf (m ++ l) c = (cmIdxOf l c).map (· + m.length) := by
  induction m with
  | nil => simp [Option.map_id']
  | cons d ds ih =>
    unfold cmIdxOf at h
    split at h
    · cases h
    · rename_i hne
      have hds : cmIdxOf ds c = Option.none := Option.map_eq_none'.mp h
      rw [List.cons_append]
      show (if constBeq d c then some 0 else (cmIdxOf (ds ++ l) c).map (· + 1)) = _
      rw [if_neg hne, ih hds]
      cases cmIdxOf l c with
      | none => rfl
      | some v =>
        simp only [Option.map_some', Option.some.injEq, List.length_cons]
        omega

theorem process_constval_inv (c : Const) (m : ConstMap) (is : List Instruction)
    (m' : ConstMap) (h : process_constval c m = (is, m')) :
    (∃ ext, m' = m ++ ext)
    ∧ (constOk c = true → constsOk m = true → constsOk m' = true)
    ∧ ∀ (b : Nat), ∀ inst ∈ is, preOk b m'.length inst = true := by
  unfold process_constval at h
  split at h
  · rename_i idx heq
    simp only [Prod.mk.injEq] at h
    obtain ⟨h1, h2⟩ := h
    subst h2
    refine ⟨⟨[], by simp⟩, fun _ hm => hm, ?_⟩
    intro b inst hi
    rw [← h1] at hi
    simp only [List.mem_singleton] at hi
    subst hi
    simp only [preOk, decide_eq_true_eq]
    exact cmIdxOf_lt m c idx heq
  · simp only [Prod.mk.injEq] at h
    obtain ⟨h1, h2⟩ := h
    subst h2
    refine ⟨⟨[c], rfl⟩, ?_, ?_⟩
    · intro hc hm
      rw [constsOk_append]
      simp [hm, constsOk_cons, constsOk_nil, hc]
    · intro b inst hi
      rw [← h1] at hi
      simp only [List.mem_singleton] at hi
      subst hi
      simp only [preOk, decide_eq_true_eq, List.length_append, List.length_singleton]
      omega

theorem internNone_ext (m : ConstMap) : ∃ ext, internNone m = m ++ ext := by
  unfold internNone
  split
  · exact ⟨[], by simp⟩
  · exact ⟨[Const.noneVal], rfl⟩

theorem internNone_constsOk (m : ConstMap) (h : constsOk m = true) :
    constsOk (internNone m) = true := by
  unfold internNone
  split
  · exact h
  · rw [constsOk_append]
    simp [h, constsOk_cons, constsOk_nil]
    rfl

theorem cmIdxOf_internNone (m : ConstMap) :
    ∃ i, cmIdxOf (internNone m) Const.noneVal = some i
      ∧ i < (internNone m).length := by
  unfold internNone
  split
  · rename_i hs
    obtain ⟨i, hi⟩ := Option.isSome_iff_exists.mp hs
    exact ⟨i, hi, cmIdxOf_lt m Const.noneVal i hi⟩
  · rename_i hs
    have hnone : cmIdxOf m Const.noneVal = Option.none := by
      cases hh : cmIdxOf m Const.noneVal with
      | none => rfl
      | some j => rw [hh] at hs; simp at hs
    rw [cmIdxOf_append_of_none m Const.noneVal hnone [Const.noneVal]]
    refine ⟨m.length, ?_, by simp⟩
    rw [show cmIdxOf [Const.noneVal] Const.noneVal = some 0 from rfl]
    simp

theorem binop_shape_inv (lhs rhs : Expr) (oc : Instruction)
    (hoc : ∀ b nc, preOk b nc oc = true)
    (ihl : ∀ m is m', compile_expr lhs m = some (is, m') → ExprInv m is m')
    (ihr : ∀ m is m', compile_expr rhs m = some (is, m') → ExprInv m is m')
    (m : ConstMap) (is : List Instruction) (m' : ConstMap)
    (h : (match compile_expr lhs m with
          | some (lhsProg, m1) =>
            (match compile_expr rhs m1 with
             | some (rhsProg, m2) => some (lhsProg ++ rhsProg ++ [oc], m2)
             | Option.none => Option.none)
          | Option.none => Option.none) = some (is, m')) : ExprInv m is m' := by
  split at h
  · rename_i lhsProg m1 heql
    split at h
    · rename_i rhsProg m2 heqr
      simp only [Option.some.injEq, Prod.mk.injEq] at h
      obtain ⟨h1, h2⟩ := h
      subst h1
      subst h2
      obtain ⟨⟨e1, he1⟩, hc1, hp1⟩ := ihl m lhsProg m1 heql
      obtain ⟨⟨e2, he2⟩, hc2, hp2⟩ := ihr m1 rhsProg m2 heqr
      refine ⟨⟨e1 ++ e2, by rw [he2, he1, List.append_assoc]⟩,
        fun hm => hc2 (hc1 hm), ?_⟩
      intro b inst hi
      have hlen : m1.length ≤ m2.length := by rw [he2]; simp
      exact preOk_all_append (preOk_all_append
          (preOk_all_mono lhsProg (Nat.le_refl b) hlen (hp1 b)) (hp2 b))
        (fun i hi2 => by
          simp only [List.mem_singleton] at hi2
          subst hi2
          exact hoc b m2.length) inst hi
    · cases h
  · cases h

theorem logic_shape_inv (lhs rhs : Expr) (attr : String)
    (ihl : ∀ m is m', compile_expr lhs m = some (is, m') → ExprInv m is m')
    (ihr : ∀ m is m', compile_expr rhs m = some (is, m') → ExprInv m is m')
    (m : ConstMap) (is : List Instruction) (m' : ConstMap)
    (h : (match compile_expr lhs m with
          | some (lhsProg, m1) =>
            (match compile_expr rhs m1 with
             | some (rhsProg, m2) =>
                some (lhsProg ++ [Instruction.LoadAttr attr] ++ rhsProg ++
                  [Instruction.CallFunction 1], m2)
             | Option.none => Option.none)
          | Option.none => Option.none) = some (is, m')) : ExprInv m is m' := by
  split at h
  · rename_i lhsProg m1 heql
    split at h
    · rename_i rhsProg m2 heqr
      simp only [Option.some.injEq, Prod.mk.injEq] at h
      obtain ⟨h1, h2⟩ := h
      subst h1
      subst h2
      obtain ⟨⟨e1, he1⟩, hc1, hp1⟩ := ihl m lhsProg m1 heql
      obtain ⟨⟨e2, he2⟩, hc2, hp2⟩ := ihr m1 rhsProg m2 heqr
      refine ⟨⟨e1 ++ e2, by rw [he2, he1, List.append_assoc]⟩,
        fun hm => hc2 (hc1 hm), ?_⟩
      intro b inst hi
      have hlen : m1.length ≤ m2.length := by rw [he2]; simp
      refine preOk_all_append (preOk_all_append (preOk_all_append
        (preOk_all_mono lhsProg (Nat.le_refl b) hlen (hp1 b))
        (fun i hi2 => by simp only [List.mem_singleton] at hi2; subst hi2; rfl))
        (hp2 b))
        (fun i hi2 => by simp only [List.mem_singleton] at hi2; subst hi2; rfl)
        inst hi
    · cases h
  · cases h

theorem unary_shape_inv (rhs : Expr) (attr : String)
    (ihr : ∀ m is m', compile_expr rhs m = some (is, m') → ExprInv m is m')
    (m : ConstMap) (is : List Instruction) (m' : ConstMap)
    (h : (match compile_expr rhs m with
          | some (rhsProg, m1) =>
              some (rhsProg ++ [Instruction.LoadAttr attr] ++
                [Instruction.CallFunction 0], m1)
          | Option.none => Option.none) = some (is, m')) : ExprInv m is m' := by
  split at h
  · rename_i rhsProg m1 heqr
    simp only [Option.some.injEq, Prod.mk.injEq] at h
    obtain ⟨h1, h2⟩ := h
    subst h1
    subst h2
    obtain ⟨⟨e1, he1⟩, hc1, hp1⟩ := ihr m rhsProg m1 heqr
    refine ⟨⟨e1, he1⟩, hc1, ?_⟩
    intro b inst hi
    refine preOk_all_append (preOk_all_append (hp1 b)
      (fun i hi2 => by simp only [List.mem_singleton] at hi2; subst hi2; rfl))
      (fun i hi2 => by simp only [List.mem_singleton] at hi2; subst hi2; rfl)
      inst hi
  · cases h

theorem bad_binop_shape_inv (lhs rhs : Expr)
    (m : ConstMap) (is : List Instruction) (m' : ConstMap)
    (h : (match compile_expr lhs m with
          | some (lhsProg, m1) =>
            (match compile_expr rhs m1 with
             | some (rhsProg, m2) =>
                 (Option.none : Option (List Instruction × ConstMap))
             | Option.none => Option.none)
          | Option.none => Option.none) = some (is, m')) : ExprInv m is m' := by
  split at h
  · split at h
    · cases h
    · cases h
  · cases h

mutual
theorem compile_expr_inv (e : Expr) : ∀ m is m',
    compile_expr e m = some (is, m') → ExprInv m is m' := by
  cases e with
  | IntegerValue i =>
    intro m is m' h
    simp only [compile_expr, Option.some.injEq] at h
    obtain ⟨he, hc, hp⟩ := process_constval_inv _ _ _ _ h
    exact ⟨he, fun hm => hc rfl hm, hp⟩
  | FloatValue f =>
    intro m is m' h
    simp only [compile_expr, Option.some.injEq] at h
    obtain ⟨he, hc, hp⟩ := process_constval_inv _ _ _ _ h
    exact ⟨he, fun hm => hc rfl hm, hp⟩
  | BooleanValue bv =>
    intro m is m' h
    simp only [compile_expr, Option.some.injEq] at h
    obtain ⟨he, hc, hp⟩ := process_constval_inv _ _ _ _ h
    exact ⟨he, fun hm => hc rfl hm, hp⟩
  | StringValue s =>
    intro m is m' h
    simp only [compile_expr, Option.some.injEq] at h
    obtain ⟨he, hc, hp⟩ := process_constval_inv _ _ _ _ h
    exact ⟨he, fun hm => hc rfl hm, hp⟩
  | NoneValue =>
    intro m is m' h
    simp only [compile_expr, Option.some.injEq] at h
    obtain ⟨he, hc, hp⟩ := process_constval_inv _ _ _ _ h
    exact ⟨he, fun hm => hc rfl hm, hp⟩
  | MemberAccess e name =>
    intro m is m' h
    have ihe := fun m2 is2 m2' h2 => compile_expr_inv e m2 is2 m2' h2
    simp only [compile_expr] at h
    split at h
    · rename_i lhs m1 heq
      simp only [Option.some.injEq, Prod.mk.injEq] at h
      obtain ⟨h1, h2⟩ := h
      subst h1
      subst h2
      obtain ⟨he, hc, hp⟩ := ihe m lhs m1 heq
      refine ⟨he, hc, ?_⟩
      intro b inst hi
      exact preOk_all_append (hp b)
        (fun i hi2 => by simp only [List.mem_singleton] at hi2; subst hi2; rfl)
        inst hi
    · cases h
  | BinaryOperation lhs op rhs =>
    intro m is m' h
    have ihl := fun m2 is2 m2' h2 => compile_expr_inv lhs m2 is2 m2' h2
    have ihr := fun m2 is2 m2' h2 => compile_expr_inv rhs m2 is2 m2' h2
    cases op <;> simp only [compile_expr] at h
    case Plus => exact binop_shape_inv lhs rhs .BinaryAdd (fun _ _ => rfl) ihl ihr m is m' h
    case Minus => exact binop_shape_inv lhs rhs .BinarySubtract (fun _ _ => rfl) ihl ihr m is m' h
    case Multiply => exact binop_shape_inv lhs rhs .BinaryMultiply (fun _ _ => rfl) ihl ihr m is m' h
    case Divide => exact binop_shape_inv lhs rhs .BinaryTrueDivision (fun _ _ => rfl) ihl ihr m is m' h
    case Mod => exact binop_shape_inv lhs rhs .BinaryModulus (fun _ _ => rfl) ihl ihr m is m' h
    case Less => exact binop_shape_inv lhs rhs .CompareLessThan (fun _ _ => rfl) ihl ihr m is m' h
    case Greater => exact binop_shape_inv lhs rhs .CompareGreaterThan (fun _ _ => rfl) ihl ihr m is m' h
    case Equals => exact binop_shape_inv lhs rhs .CompareEquals (fun _ _ => rfl) ihl ihr m is m' h
    case GreaterEquals => exact binop_shape_inv lhs rhs .CompareGreaterEquals (fun _ _ => rfl) ihl ihr m is m' h
    case LessEquals => exact binop_shape_inv lhs rhs .CompareLessEquals (fun _ _ => rfl) ihl ihr m is m' h
    case NotEquals => exact binop_shape_inv lhs rhs .CompareNotEquals (fun _ _ => rfl) ihl ihr m is m' h
    case And => exact logic_shape_inv lhs rhs "__and__" ihl ihr m is m' h
    case Or => exact logic_shape_inv lhs rhs "__or__" ihl ihr m is m' h
    case Xor => exact logic_shape_inv lhs rhs "__xor__" ihl ihr m is m' h
    case BitShiftLeft => exact bad_binop_shape_inv lhs rhs m is m' h
    case BitShiftRight => exact bad_binop_shape_inv lhs rhs m is m' h
    case Not => exact bad_binop_shape_inv lhs rhs m is m' h
  | UnaryExpression op rhs =>
    intro m is m' h
    have ihr := fun m2 is2 m2' h2 => compile_expr_inv rhs m2 is2 m2' h2
    cases op <;> simp only [compile_expr] at h
    case Plus => exact unary_shape_inv rhs "__pos__" ihr m is m' h
    case Not => exact unary_shape_inv rhs "__not__" ihr m is m' h
    case Minus => exact unary_shape_inv rhs "__neg__" ihr m is m' h
    all_goals cases h
  | FunctionCall f params =>
    intro m is m' h
    have ihf := fun m2 is2 m2' h2 => compile_expr_inv f m2 is2 m2' h2
    have ihp := fun m2 is2 m2' h2 => compile_expr_list_inv params m2 is2 m2' h2
    simp only [compile_expr] at h
    split at h
    · rename_i methodInstrs m1 heqf
      split at h
      · rename_i paramInstrs m2 heqp
        simp only [Option.some.injEq, Prod.mk.injEq] at h
        obtain ⟨h1, h2⟩ := h
        subst h1
        subst h2
        obtain ⟨⟨e1, he1⟩, hc1, hp1⟩ := ihf m methodInstrs m1 heqf
        obtain ⟨⟨e2, he2⟩, hc2, hp2⟩ := ihp m1 paramInstrs m2 heqp
        refine ⟨⟨e1 ++ e2, by rw [he2, he1, List.append_assoc]⟩,
          fun hm => hc2 (hc1 hm), ?_⟩
        intro b inst hi
        have hlen : m1.length ≤ m2.length := by rw [he2]; simp
        refine preOk_all_append (preOk_all_append
            (preOk_all_mono methodInstrs (Nat.le_refl b) hlen (hp1 b)) (hp2 b))
          (fun i hi2 => by simp only [List.mem_singleton] at hi2; subst hi2; rfl)
          inst hi
      · cases h
    · cases h
  | IndexAccess e index =>
    intro m is m' h
    have ihe := fun m2 is2 m2' h2 => compile_expr_inv e m2 is2 m2' h2
    have ihi := fun m2 is2 m2' h2 => compile_expr_inv index m2 is2 m2' h2
    simp only [compile_expr] at h
    split at h
    · rename_i indexedValue m1 heqe
      split at h
      · rename_i indexValue m2 heqi
        simp only [Option.some.injEq, Prod.mk.injEq] at h
        obtain ⟨h1, h2⟩ := h
        subst h1
        subst h2
        obtain ⟨⟨e1, he1⟩, hc1, hp1⟩ := ihe m indexedValue m1 heqe
        obtain ⟨⟨e2, he2⟩, hc2, hp2⟩ := ihi m1 indexValue m2 heqi
        refine ⟨⟨e1 ++ e2, by rw [he2, he1, List.append_assoc]⟩,
          fun hm => hc2 (hc1 hm), ?_⟩
        intro b inst hi
        have hlen : m1.length ≤ m2.length := by rw [he2]; simp
        refine preOk_all_append (preOk_all_append
            (preOk_all_mono indexedValue (Nat.le_refl b) hlen (hp1 b)) (hp2 b))
          (fun i hi2 => by simp only [List.mem_singleton] at hi2; subst hi2; rfl)
          inst hi
      · cases h
    · cases h
  | Array exprs =>
    intro m is m' h
    have ihp := fun m2 is2 m2' h2 => compile_expr_list_inv exprs m2 is2 m2' h2
    simp only [compile_expr] at h
    split at h
    · rename_i instrs m1 heqp
      simp only [Option.some.injEq, Prod.mk.injEq] at h
      obtain ⟨h1, h2⟩ := h
      subst h1
      subst h2
      obtain ⟨he, hc, hp⟩ := ihp m instrs m1 heqp
      refine ⟨he, hc, ?_⟩
      intro b inst hi
      exact preOk_all_append (hp b)
        (fun i hi2 => by simp only [List.mem_singleton] at hi2; subst hi2; rfl)
        inst hi
    · cases h
  | Variable varName =>
    intro m is m' h
    simp only [compile_expr, Option.some.injEq, Prod.mk.injEq] at h
    obtain ⟨h1, h2⟩ := h
    subst h1
    subst h2
    refine ⟨⟨[], by simp⟩, fun hm => hm, ?_⟩
    intro b inst hi
    simp only [List.mem_singleton] at hi
    subst hi
    rfl
  | Parenthesized e =>
    intro m is m' h
    simp only [compile_expr] at h
    cases h

theorem compile_expr_list_inv (l : List Expr) : ∀ m is m',
    compile_expr_list l m = some (is, m') → ExprInv m is m' := by
  cases l with
  | nil =>
    intro m is m' h
    simp only [compile_expr_list, Option.some.injEq, Prod.mk.injEq] at h
    obtain ⟨h1, h2⟩ := h
    subst h1
    subst h2
    refine ⟨⟨[], by simp⟩, fun hm => hm, ?_⟩
    intro b inst hi
    cases hi
  | cons e rest =>
    intro m is m' h
    have ihe := fun m2 is2 m2' h2 => compile_expr_inv e m2 is2 m2' h2
    have ihr := fun m2 is2 m2' h2 => compile_expr_list_inv rest m2 is2 m2' h2
    simp only [compile_expr_list] at h
    split at h
    · rename_i eis m1 heqe
      split at h
      · rename_i restIs m2 heqr
        simp only [Option.some.injEq, Prod.mk.injEq] at h
        obtain ⟨h1, h2⟩ := h
        subst h1
        subst h2
        obtain ⟨⟨e1, he1⟩, hc1, hp1⟩ := ihe m eis m1 heqe
        obtain ⟨⟨e2, he2⟩, hc2, hp2⟩ := ihr m1 restIs m2 heqr
        refine ⟨⟨e1 ++ e2, by rw [he2, he1, List.append_assoc]⟩,
          fun hm => hc2 (hc1 hm), ?_⟩
        intro b inst hi
        have hlen : m1.length ≤ m2.length := by rw [he2]; simp
        exact preOk_all_append
          (preOk_all_mono eis (Nat.le_refl b) hlen (hp1 b)) (hp2 b) inst hi
      · cases h
    · cases h
end

theorem generate_assign_path_preOk (path : List String) :
    ∀ (isFirst : Bool) (b nc : Nat),
    ∀ inst ∈ generate_assign_path path isFirst, preOk b nc inst = true := by
  induction path with
  | nil => intro isFirst b nc inst hi; cases hi
  | cons first rest ih =>
    intro isFirst b nc inst hi
    unfold generate_assign_path at hi
    split at hi
    · rcases List.mem_append.mp hi with h1 | h2
      · cases isFirst <;> simp at h1 <;> (subst h1; rfl)
      · exact ih false b nc inst h2
    · simp only [List.mem_singleton] at hi
      subst hi
      rfl

theorem compileDefaults_inv (ps : List FunctionParameter) :
    ∀ m is n m', compileDefaults ps m = some (is, n, m') →
    (∃ ext, m' = m ++ ext)
    ∧ (constsOk m = true → constsOk m' = true)
    ∧ ∀ (b : Nat), ∀ inst ∈ is, preOk b m'.length inst = true := by
  induction ps with
  | nil =>
    intro m is n m' h
    simp only [compileDefaults, Option.some.injEq, Prod.mk.injEq] at h
    obtain ⟨h1, _, h3⟩ := h
    subst h1
    subst h3
    exact ⟨⟨[], by simp⟩, fun hm => hm, fun b inst hi => absurd hi (List.not_mem_nil inst)⟩
  | cons p rest ih =>
    intro m is n m' h
    cases p with
    | Simple name =>
      simp only [compileDefaults] at h
      exact ih m is n m' h
    | DefaultValue name e =>
      simp only [compileDefaults] at h
      split at h
      · rename_i eis m1 heqe
        split at h
        · rename_i restIs k m2 heqr
          simp only [Option.some.injEq, Prod.mk.injEq] at h
          obtain ⟨h1, _, h3⟩ := h
          subst h1
          subst h3
          obtain ⟨⟨e1, he1⟩, hc1, hp1⟩ := compile_expr_inv e m eis m1 heqe
          obtain ⟨⟨e2, he2⟩, hc2, hp2⟩ := ih m1 restIs k m2 heqr
          refine ⟨⟨e1 ++ e2, by rw [he2, he1, List.append_assoc]⟩,
            fun hm => hc2 (hc1 hm), ?_⟩
          intro b inst hi
          have hlen : m1.length ≤ m2.length := by rw [he2]; simp
          exact preOk_all_append
            (preOk_all_mono eis (Nat.le_refl b) hlen (hp1 b)) (hp2 b) inst hi
        · cases h
      · cases h

theorem make_code_object_inv (instrs : List Instruction) (name : String)
    (m : ConstMap) (er : Bool) (co : CodeObject) (m' : ConstMap)
    (h : make_code_object instrs name m er = some (co, m')) :
    (∃ ext, m' = m ++ ext)
    ∧ (constsOk m = true → constsOk m' = true)
    ∧ co.consts = m' ∧ co.params = [] ∧ co.names = []
    ∧ instrs.length ≤ co.instructions.length
    ∧ ∀ (b : Nat), (∀ inst ∈ instrs, preOk b m.length inst = true) →
        ∀ inst ∈ co.instructions, preOk b m'.length inst = true := by
  unfold make_code_object at h
  cases er with
  | false =>
    rw [if_neg (by simp)] at h
    simp only [Option.some.injEq, Prod.mk.injEq] at h
    obtain ⟨h1, h2⟩ := h
    subst h2
    subst h1
    exact ⟨⟨[], by simp⟩, fun hm => hm, rfl, rfl, rfl, Nat.le_refl _,
      fun b hb => hb⟩
  | true =>
    rw [if_pos rfl] at h
    split at h
    · cases h
    · simp only [Option.some.injEq, Prod.mk.injEq] at h
      obtain ⟨h1, h2⟩ := h
      subst h2
      subst h1
      exact ⟨⟨[], by simp⟩, fun hm => hm, rfl, rfl, rfl, Nat.le_refl _,
        fun b hb => hb⟩
    · split at h
      · rename_i hg idx heqi
        simp only [Option.some.injEq, Prod.mk.injEq] at h
        obtain ⟨h1, h2⟩ := h
        subst h2
        subst h1
        obtain ⟨ext, hext⟩ := internNone_ext m
        refine ⟨⟨ext, hext⟩, internNone_constsOk m, rfl, rfl, rfl, by simp, ?_⟩
        intro b hb
        have hmlen : m.length ≤ (internNone m).length := by rw [hext]; simp
        refine preOk_all_append
          (preOk_all_mono instrs (Nat.le_refl b) hmlen hb) ?_
        intro i hi
        rcases List.mem_cons.mp hi with h3 | h3
        · subst h3
          simp only [preOk, decide_eq_true_eq]
          exact cmIdxOf_lt _ _ idx heqi
        · simp only [List.mem_singleton] at h3
          subst h3
          rfl
      · cases h

theorem nmLookup_mem (m : NamesMap) (k : String) :
    ∀ v, nmLookup m k = some v → (k, v) ∈ m := by
  induction m with
  | nil => intro v h; cases h
  | cons p rest ih =>
    intro v h
    obtain ⟨k1, v1⟩ := p
    unfold nmLookup at h
    split at h
    · rename_i hbeq
      simp only [Option.some.injEq] at h
      have : k1 = k := by simpa using hbeq
      subst this
      subst h
      exact List.mem_cons_self _ _
    · exact List.mem_cons_of_mem _ (ih v h)

theorem nmInsert_of_not_found (m : NamesMap) (n : String) (x : Nat) :
    nmLookup m n = Option.none → nmInsert m n x = m ++ [(n, x)] := by
  induction m with
  | nil => intro _; rfl
  | cons p rest ih =>
    intro h
    obtain ⟨k1, v1⟩ := p
    unfold nmLookup at h
    split at h
    · cases h
    · rename_i hbeq
      show (if k1 == n then (n, x) :: rest else (k1, v1) :: nmInsert rest n x) = _
      rw [if_neg hbeq, ih h]
      rfl

theorem postOk_of_preOk {b nc : Nat} (mf : NamesMap) (i : Instruction)
    (h : preOk b nc i = true) : postOk b nc mf i := by
  cases i <;> simp_all [preOk, postOk]

theorem postOk_mono_map {b nc : Nat} {m2 mf : NamesMap} (i : Instruction)
    (h : postOk b nc m2 i) (hmono : ∀ p ∈ m2, p ∈ mf) : postOk b nc mf i := by
  cases i <;>
    first
    | exact h
    | (obtain ⟨p, hp, hps⟩ := h; exact ⟨p, hmono p hp, hps⟩)

theorem resolveOne_facts (params : List String) (inst : Instruction)
    (m : NamesMap) (inst' : Instruction) (m2 : NamesMap)
    (h : resolveOne params inst m = some (inst', m2)) :
    (∀ p ∈ m, p ∈ m2)
    ∧ (∀ b nc, preOk b nc inst = true → postOk b nc m2 inst') := by
  unfold resolveOne at h
  split at h
  · rename_i name
    split at h
    · rename_i idx hl
      simp only [Option.some.injEq, Prod.mk.injEq] at h
      obtain ⟨h1, h2⟩ := h
      subst h2
      subst h1
      exact ⟨fun p hp => hp, fun b nc _ =>
        ⟨(name, idx), nmLookup_mem m name idx hl, rfl⟩⟩
    · rename_i hl
      have hins : nmInsert m name m.length = m ++ [(name, m.length)] :=
        nmInsert_of_not_found m name m.length hl
      split at h <;>
        (simp only [Option.some.injEq, Prod.mk.injEq] at h
         obtain ⟨h1, h2⟩ := h
         subst h2
         subst h1
         rw [hins]
         exact ⟨fun p hp => List.mem_append_left _ hp, fun b nc _ =>
           ⟨(name, m.length), List.mem_append_right _ (List.mem_singleton_self _), rfl⟩⟩)
  · rename_i name
    split at h
    · rename_i idx hl
      simp only [Option.some.injEq, Prod.mk.injEq] at h
      obtain ⟨h1, h2⟩ := h
      subst h2
      subst h1
      exact ⟨fun p hp => hp, fun b nc _ =>
        ⟨(name, idx), nmLookup_mem m name idx hl, rfl⟩⟩
    · cases h
  · rename_i name
    split at h
    · rename_i idx hl
      simp only [Option.some.injEq, Prod.mk.injEq] at h
      obtain ⟨h1, h2⟩ := h
      subst h2
      subst h1
      exact ⟨fun p hp => hp, fun b nc _ =>
        ⟨(name, idx), nmLookup_mem m name idx hl, rfl⟩⟩
    · cases h
  · simp only [Option.some.injEq, Prod.mk.injEq] at h
    obtain ⟨h1, h2⟩ := h
    subst h2
    subst h1
    exact ⟨fun p hp => hp, fun b nc hpre => postOk_of_preOk _ _ hpre⟩

theorem resolveInstrs_facts (params : List String) (is : List Instruction) :
    ∀ m is' mf, resolveInstrs params is m = some (is', mf) →
    (∀ p ∈ m, p ∈ mf)
    ∧ (∀ b nc, (∀ inst ∈ is, preOk b nc inst = true) →
        ∀ inst' ∈ is', postOk b nc mf inst') := by
  induction is with
  | nil =>
    intro m is' mf h
    simp only [resolveInstrs, Option.some.injEq, Prod.mk.injEq] at h
    obtain ⟨h1, h2⟩ := h
    subst h2
    subst h1
    exact ⟨fun p hp => hp, fun b nc _ inst' hi => absurd hi (List.not_mem_nil _)⟩
  | cons inst rest ih =>
    intro m is' mf h
    unfold resolveInstrs at h
    split at h
    · rename_i inst1 m1 heq1
      split at h
      · rename_i tl mft heq2
        simp only [Option.some.injEq, Prod.mk.injEq] at h
        obtain ⟨h1, h2⟩ := h
        rw [← h1, ← h2]
        obtain ⟨hm1, hpost1⟩ := resolveOne_facts params inst m inst1 m1 heq1
        obtain ⟨hm2, hpost2⟩ := ih m1 tl mft heq2
        refine ⟨fun p hp => hm2 p (hm1 p hp), ?_⟩
        intro b nc hpre inst' hi
        rcases List.mem_cons.mp hi with h3 | h3
        · subst h3
          exact postOk_mono_map _
            (hpost1 b nc (hpre inst (List.mem_cons_self _ _))) hm2
        · exact hpost2 b nc
            (fun i2 hi2 => hpre i2 (List.mem_cons_of_mem _ hi2)) inst' h3
      · cases h
    · cases h

theorem buildIndicesNames_bounds (entries : NamesMap) :
    ∀ arr out, buildIndicesNames entries arr = some out →
    ∀ p ∈ entries, p.2 < arr.length := by
  induction entries with
  | nil => intro arr out _ p hp; cases hp
  | cons q rest ih =>
    intro arr out h p hp
    obtain ⟨k, v⟩ := q
    unfold buildIndicesNames at h
    split at h
    · rename_i hlt
      rcases List.mem_cons.mp hp with h1 | h1
      · subst h1
        exact hlt
      · have := ih (arr.set v k) out h p h1
        rwa [List.length_set] at this
    · cases h

theorem instrOk_of_postOk {b nc nn : Nat} (mf : NamesMap) (i : Instruction)
    (hpost : postOk b nc mf i) (hslot : ∀ s, slotInMap s mf → s < nn) :
    instrOk b nc nn i = true := by
  cases i <;> simp_all [postOk, instrOk]
  all_goals (exact hslot _ hpost)

theorem resolve_ok (c r : CodeObject) (b : Nat)
    (h : resolve_loads_stores c = some r)
    (hpre : ∀ inst ∈ c.instructions, preOk b c.consts.length inst = true) :
    ∀ inst ∈ r.instructions, instrOk b r.consts.length r.names.length inst = true := by
  unfold resolve_loads_stores at h
  split at h
  · rename_i is' mf heqr
    split at h
    · rename_i indicesNames heqb
      simp only [Option.some.injEq] at h
      subst h
      intro inst hi
      obtain ⟨_, hpost⟩ := resolveInstrs_facts _ _ _ _ _ heqr
      have hnames_len : indicesNames.length = mf.length := by
        rw [buildIndicesNames_length _ _ _ heqb, List.length_replicate]
      have hslot : ∀ s, slotInMap s mf → s < indicesNames.length := by
        rintro s ⟨p, hp, hps⟩
        have hmem : p ∈ sortByKey mf := (sortByKey_perm mf).mem_iff.mpr hp
        have hb2 := buildIndicesNames_bounds _ _ _ heqb p hmem
        rw [List.length_replicate] at hb2
        omega
      exact instrOk_of_postOk mf inst
        (hpost b c.consts.length hpre inst hi) hslot
    · cases h
  · cases h

theorem preOk_singleton {B NC : Nat} {i : Instruction} (h : preOk B NC i = true) :
    ∀ inst ∈ [i], preOk B NC inst = true := by
  intro inst hi
  simp only [List.mem_singleton] at hi
  subst hi
  exact h

theorem breaks_mapped_preOk {b nc : Nat} (target : Nat) (body : List Instruction)
    (hb : ∀ inst ∈ body, preOk b nc inst = true) (ht : target ≤ b) :
    ∀ inst ∈ body.map (fun instr => match instr with
      | Instruction.UnresolvedBreak => Instruction.JumpUnconditional target
      | _ => instr), preOk b nc inst = true := by
  intro inst hi
  obtain ⟨orig, horig, heq⟩ := List.mem_map.mp hi
  rw [← heq]
  cases orig <;>
    first
    | exact hb _ horig
    | (simp only [preOk, decide_eq_true_eq]; exact ht)

theorem stmtInv_comp {acc : List Instruction} {offset : Nat} {m : ConstMap}
    {acc1 : List Instruction} {m1 : ConstMap} {res : List Instruction}
    {m' : ConstMap} (h1 : StmtInv acc offset m acc1 m1)
    (h2 : StmtInv acc1 offset m1 res m') : StmtInv acc offset m res m' := by
  obtain ⟨⟨e1, he1⟩, hc1, hl1, hp1⟩ := h1
  obtain ⟨⟨e2, he2⟩, hc2, hl2, hp2⟩ := h2
  exact ⟨⟨e1 ++ e2, by rw [he2, he1, List.append_assoc]⟩, fun hm => hc2 (hc1 hm),
    Nat.le_trans hl1 hl2, fun hp => hp2 (hp1 hp)⟩

theorem exprInv_extend_intern {m : ConstMap} {eis : List Instruction}
    {m1 : ConstMap} (h : ExprInv m eis m1) : ExprInv m eis (internNone m1) := by
  obtain ⟨⟨e1, he1⟩, hc1, hp1⟩ := h
  obtain ⟨e2, he2⟩ := internNone_ext m1
  refine ⟨⟨e1 ++ e2, by rw [he2, he1, List.append_assoc]⟩,
    fun hm => internNone_constsOk m1 (hc1 hm), ?_⟩
  intro b inst hi
  have hlen : m1.length ≤ (internNone m1).length := by rw [he2]; simp
  exact preOk_mono inst (Nat.le_refl b) hlen (hp1 b inst hi)

theorem stmtInv_append_simple {acc : List Instruction} {offset : Nat}
    {m : ConstMap} {eis tail : List Instruction} {m1 : ConstMap}
    (hexpr : ExprInv m eis m1)
    (htail : ∀ b, ∀ inst ∈ tail, preOk b m1.length inst = true) :
    StmtInv acc offset m (acc ++ eis ++ tail) m1 := by
  obtain ⟨⟨e1, he1⟩, hc1, hp1⟩ := hexpr
  refine ⟨⟨e1, he1⟩, hc1, by simp, ?_⟩
  intro hacc inst hi
  have hmlen : m.length ≤ m1.length := by rw [he1]; simp
  have hblen : offset + acc.length ≤ offset + (acc ++ eis ++ tail).length := by simp
  rcases List.mem_append.mp hi with h1 | h2
  · rcases List.mem_append.mp h1 with ha | he
    · exact preOk_mono inst hblen hmlen (hacc inst ha)
    · exact hp1 _ inst he
  · exact htail _ inst h2

theorem inner_code_const_ok (body : List AST)
    (hIH : ∀ acc offset qual m res m',
      compile_stmts body acc offset qual m = some (res, m') →
        StmtInv acc offset m res m')
    (q : Option String) (qn : String) (bi : List Instruction) (nm : ConstMap)
    (co : CodeObject) (nm' : ConstMap) (P : List String) (r : CodeObject)
    (h1 : compile_stmts body [] 0 q [] = some (bi, nm))
    (h2 : make_code_object bi qn nm true = some (co, nm'))
    (h3 : resolve_loads_stores { co with main := false, params := P } = some r) :
    constOk (Const.ofCode r) = true := by
  obtain ⟨_, hco1, _, hpre⟩ := hIH [] 0 q [] bi nm h1
  have hbi : ∀ inst ∈ bi, preOk bi.length nm.length inst = true := by
    have := hpre (fun inst hi => absurd hi (List.not_mem_nil inst))
    simpa using this
  obtain ⟨⟨e2, he2⟩, hco2, hcc, _, _, hlen, hmk⟩ :=
    make_code_object_inv bi qn nm true co nm' h2
  have hco_pre : ∀ inst ∈ co.instructions,
      preOk co.instructions.length nm'.length inst = true :=
    preOk_all_mono _ hlen (Nat.le_refl _) (hmk bi.length hbi)
  have hro := resolve_ok { co with main := false, params := P } r
    co.instructions.length h3 (by
      show ∀ inst ∈ co.instructions, preOk co.instructions.length co.consts.length inst = true
      rw [hcc]
      exact hco_pre)
  have hrp := resolve_preserves { co with main := false, params := P } r h3
  rw [show Const.ofCode r
    = .codeObject r.instructions r.names r.params r.consts r.main r.objname from rfl,
    constOk_codeObject]
  have hinstr : instrsOk r.instructions r.instructions.length r.consts.length
      r.names.length = true := by
    unfold instrsOk
    rw [List.all_eq_true]
    intro inst hi
    have hre : r.instructions.length = co.instructions.length := hrp.1
    rw [hre]
    exact hro inst hi
  have hconsts : constsOk r.consts = true := by
    have : r.consts = nm' := by rw [hrp.2.1]; exact hcc
    rw [this]
    exact hco2 (hco1 rfl)
  rw [hinstr, hconsts]
  rfl

theorem buildIndicesNames_enum_perm (ns : List String) (entries : NamesMap)
    (hperm : entries.Perm (nmOfNames ns)) :
    buildIndicesNames entries (List.replicate ns.length "") = some ns := by
  have hbound : ∀ p ∈ entries, p.2 < (List.replicate ns.length "").length := by
    intro p hp
    obtain ⟨a, v⟩ := p
    have := (mem_nmOfNames ns a v).mp (hperm.mem_iff.mp hp)
    rw [List.length_replicate]
    exact (List.getElem?_eq_some_iff.mp this).1
  obtain ⟨out, hout⟩ := buildIndicesNames_isSome entries _ hbound
  have hlen : out.length = ns.length := by
    rw [buildIndicesNames_length entries _ out hout, List.length_replicate]
  have hext : out = ns := by
    apply List.ext_getElem?
    intro j
    by_cases hj : j < ns.length
    · have hns : ns[j]? = some ns[j] := List.getElem?_eq_getElem hj
      have hmem : (ns[j], j) ∈ entries :=
        hperm.mem_iff.mpr ((mem_nmOfNames ns ns[j] j).mpr hns)
      have huniq : ∀ p ∈ entries, p.2 = j → p.1 = ns[j] := by
        intro p hp hpj
        obtain ⟨a, v⟩ := p
        have := (mem_nmOfNames ns a v).mp (hperm.mem_iff.mp hp)
        simp only at hpj
        rw [hpj] at this
        rw [hns] at this
        simpa using this.symm
      rw [buildIndicesNames_mem entries _ out ns[j] j hout hmem huniq, hns]
    · rw [List.getElem?_eq_none (by omega : ns.length ≤ j),
        List.getElem?_eq_none (by omega : out.length ≤ j)]
  rw [hout, hext]

/-! ### Statement-level invariants (claim C7): one lemma per assembled shape -/

theorem while_stmtInv {offset : Nat} {m m1 m2 : ConstMap}
    {acc exprIs bodyIs : List Instruction}
    (hE : ExprInv m exprIs m1)
    (hB : StmtInv [] (acc.length + exprIs.length + 1) m1 bodyIs m2) :
    StmtInv acc offset m
      (acc ++ exprIs ++
        [Instruction.JumpIfFalseAndPopStack
          (acc.length + exprIs.length + 1 + bodyIs.length + 1)] ++
        bodyIs.map (fun instr =>
          match instr with
          | .UnresolvedBreak =>
              Instruction.JumpUnconditional
                (acc.length + exprIs.length + 1 + bodyIs.length + 1)
          | _ => instr) ++
        [Instruction.JumpUnconditional (acc.length + offset)]) m2 := by
  obtain ⟨⟨e1, he1⟩, hc1, hp1⟩ := hE
  obtain ⟨⟨e2, he2⟩, hc2, _, hp2⟩ := hB
  have hbody := hp2 (fun inst hi => absurd hi (List.not_mem_nil inst))
  have hmm1 : m.length ≤ m1.length := by rw [he1]; simp
  have hmm2 : m1.length ≤ m2.length := by rw [he2]; simp
  refine ⟨⟨e1 ++ e2, by rw [he2, he1, List.append_assoc]⟩,
    fun hm => hc2 (hc1 hm),
    by simp only [List.length_append, List.length_map, List.length_cons,
      List.length_nil]; omega, ?_⟩
  intro hacc inst hi
  refine preOk_mono inst
    (?_ : offset + acc.length + exprIs.length + 1 + bodyIs.length + 1 ≤ _)
    (Nat.le_refl _) ?_
  · simp only [List.length_append, List.length_map, List.length_cons,
      List.length_nil]
    omega
  · rcases List.mem_append.mp hi with h4 | h5
    · rcases List.mem_append.mp h4 with h3 | hmapped
      · rcases List.mem_append.mp h3 with h2 | hjif
        · rcases List.mem_append.mp h2 with ha | hex
          · exact preOk_mono inst (by omega) (Nat.le_trans hmm1 hmm2)
              (hacc inst ha)
          · exact preOk_mono inst (Nat.le_refl _) hmm2 (hp1 _ inst hex)
        · simp only [List.mem_singleton] at hjif
          subst hjif
          simp only [preOk, decide_eq_true_eq]
          omega
      · exact breaks_mapped_preOk _ bodyIs
          (preOk_all_mono bodyIs (by omega) (Nat.le_refl _) hbody)
          (by omega) inst hmapped
    · simp only [List.mem_singleton] at h5
      subst h5
      simp only [preOk, decide_eq_true_eq]
      omega

theorem if_none_stmtInv {offset : Nat} {m m1 m2 : ConstMap}
    {acc condIs trueIs : List Instruction}
    (hE : ExprInv m condIs m1)
    (hT : StmtInv [] (offset + (acc ++ condIs).length + 1) m1 trueIs m2) :
    StmtInv acc offset m
      ((acc ++ condIs) ++
        [Instruction.JumpIfFalseAndPopStack
          (offset + (acc ++ condIs).length + 1 + trueIs.length)] ++ trueIs) m2 := by
  obtain ⟨⟨e1, he1⟩, hc1, hp1⟩ := hE
  obtain ⟨⟨e2, he2⟩, hc2, _, hp2⟩ := hT
  have hbody := hp2 (fun inst hi => absurd hi (List.not_mem_nil inst))
  have hmm1 : m.length ≤ m1.length := by rw [he1]; simp
  have hmm2 : m1.length ≤ m2.length := by rw [he2]; simp
  refine ⟨⟨e1 ++ e2, by rw [he2, he1, List.append_assoc]⟩,
    fun hm => hc2 (hc1 hm),
    by simp only [List.length_append, List.length_cons, List.length_nil]; omega,
    ?_⟩
  intro hacc inst hi
  refine preOk_mono inst
    (?_ : offset + acc.length + condIs.length + 1 + trueIs.length ≤ _)
    (Nat.le_refl _) ?_
  · simp only [List.length_append, List.length_cons, List.length_nil]
    omega
  · rcases List.mem_append.mp hi with h3 | htrue
    · rcases List.mem_append.mp h3 with h2 | hjif
      · rcases List.mem_append.mp h2 with ha | hcond
        · exact preOk_mono inst (by omega) (Nat.le_trans hmm1 hmm2)
            (hacc inst ha)
        · exact preOk_mono inst (Nat.le_refl _) hmm2 (hp1 _ inst hcond)
      · simp only [List.mem_singleton] at hjif
        subst hjif
        simp only [preOk, decide_eq_true_eq, List.length_append]
        omega
    · exact preOk_mono inst
        (by simp only [List.length_append]; omega) (Nat.le_refl _)
        (hbody inst htrue)

theorem if_some_stmtInv {offset : Nat} {m m1 m2 m3 : ConstMap}
    {acc condIs trueIs falseIs : List Instruction}
    (hE : ExprInv m condIs m1)
    (hT : StmtInv [] (offset + (acc ++ condIs).length + 1) m1 trueIs m2)
    (hF : StmtInv [] (offset + (acc ++ condIs).length + 1 + trueIs.length + 1)
      m2 falseIs m3) :
    StmtInv acc offset m
      (((acc ++ condIs) ++
        [Instruction.JumpIfFalseAndPopStack
          (offset + (acc ++ condIs).length + 1 + trueIs.length + 1)] ++ trueIs) ++
        [Instruction.JumpUnconditional
          (offset + (acc ++ condIs).length + 1 + trueIs.length + 1 + falseIs.length)] ++
        falseIs) m3 := by
  obtain ⟨⟨e1, he1⟩, hc1, hp1⟩ := hE
  obtain ⟨⟨e2, he2⟩, hc2, _, hp2⟩ := hT
  obtain ⟨⟨e3, he3⟩, hc3, _, hp3⟩ := hF
  have htrue := hp2 (fun inst hi => absurd hi (List.not_mem_nil inst))
  have hfalse := hp3 (fun inst hi => absurd hi (List.not_mem_nil inst))
  have hmm1 : m.length ≤ m1.length := by rw [he1]; simp
  have hmm2 : m1.length ≤ m2.length := by rw [he2]; simp
  have hmm3 : m2.length ≤ m3.length := by rw [he3]; simp
  refine ⟨⟨e1 ++ (e2 ++ e3), by rw [he3, he2, he1]; simp [List.append_assoc]⟩,
    fun hm => hc3 (hc2 (hc1 hm)),
    by simp only [List.length_append, List.length_cons, List.length_nil]; omega,
    ?_⟩
  intro hacc inst hi
  refine preOk_mono inst
    (?_ : offset + acc.length + condIs.length + 1 + trueIs.length + 1
      + falseIs.length ≤ _)
    (Nat.le_refl _) ?_
  · simp only [List.length_append, List.length_cons, List.length_nil]
    omega
  · rcases List.mem_append.mp hi with h5 | hfalsemem
    · rcases List.mem_append.mp h5 with h4 | hju
      · rcases List.mem_append.mp h4 with h3 | htruemem
        · rcases List.mem_append.mp h3 with h2 | hjif
          · rcases List.mem_append.mp h2 with ha | hcond
            · exact preOk_mono inst (by omega)
                (Nat.le_trans hmm1 (Nat.le_trans hmm2 hmm3)) (hacc inst ha)
            · exact preOk_mono inst (Nat.le_refl _)
                (Nat.le_trans hmm2 hmm3) (hp1 _ inst hcond)
          · simp only [List.mem_singleton] at hjif
            subst hjif
            simp only [preOk, decide_eq_true_eq, List.length_append]
            omega
        · exact preOk_mono inst
            (by simp only [List.length_append]; omega) hmm3
            (htrue inst htruemem)
      · simp only [List.mem_singleton] at hju
        subst hju
        simp only [preOk, decide_eq_true_eq, List.length_append]
        omega
    · exact preOk_mono inst
        (by simp only [List.length_append]; omega) (Nat.le_refl _)
        (hfalse inst hfalsemem)

theorem for_stmtInv {offset : Nat} {m m1 m2 : ConstMap} {itemName : String}
    {acc listIs bodyIs : List Instruction}
    (hE : ExprInv m listIs m1)
    (hB : StmtInv [] 0 m1 bodyIs m2) :
    StmtInv acc offset m
      ((acc ++ listIs ++
          [Instruction.LoadAttr "__iter__", Instruction.CallFunction 0]) ++
        (Instruction.ForIter
            ((acc ++ listIs ++ [Instruction.LoadAttr "__iter__",
                Instruction.CallFunction 0]).length + offset +
              (Instruction.UnresolvedStoreName itemName :: bodyIs).length + 2) ::
          (Instruction.UnresolvedStoreName itemName :: bodyIs).map (fun instr =>
            match instr with
            | .UnresolvedBreak =>
                Instruction.JumpUnconditional
                  ((acc ++ listIs ++ [Instruction.LoadAttr "__iter__",
                      Instruction.CallFunction 0]).length + offset +
                    (Instruction.UnresolvedStoreName itemName :: bodyIs).length + 2)
            | _ => instr)) ++
        [Instruction.JumpUnconditional
          ((acc ++ listIs ++ [Instruction.LoadAttr "__iter__",
              Instruction.CallFunction 0]).length + offset)]) m2 := by
  obtain ⟨⟨e1, he1⟩, hc1, hp1⟩ := hE
  obtain ⟨⟨e2, he2⟩, hc2, _, hp2⟩ := hB
  have hbody := hp2 (fun inst hi => absurd hi (List.not_mem_nil inst))
  have hmm1 : m.length ≤ m1.length := by rw [he1]; simp
  have hmm2 : m1.length ≤ m2.length := by rw [he2]; simp
  refine ⟨⟨e1 ++ e2, by rw [he2, he1, List.append_assoc]⟩,
    fun hm => hc2 (hc1 hm),
    by simp only [List.length_append, List.length_map, List.length_cons,
      List.length_nil]; omega, ?_⟩
  intro hacc inst hi
  refine preOk_mono inst
    (?_ : offset + acc.length + listIs.length + bodyIs.length + 5 ≤ _)
    (Nat.le_refl _) ?_
  · simp only [List.length_append, List.length_map, List.length_cons,
      List.length_nil]
    omega
  · rcases List.mem_append.mp hi with h4 | h5
    · rcases List.mem_append.mp h4 with h3 | hloop
      · rcases List.mem_append.mp h3 with h2 | hcall
        · rcases List.mem_append.mp h2 with ha | hlst
          · exact preOk_mono inst (by omega) (Nat.le_trans hmm1 hmm2)
              (hacc inst ha)
          · exact preOk_mono inst (Nat.le_refl _) hmm2 (hp1 _ inst hlst)
        · simp only [List.mem_cons, List.not_mem_nil, or_false] at hcall
          rcases hcall with rfl | rfl <;> rfl
      · rcases List.mem_cons.mp hloop with rfl | hmapped
        · simp only [preOk, decide_eq_true_eq, List.length_append,
            List.length_cons, List.length_nil]
          omega
        · refine breaks_mapped_preOk _
            (Instruction.UnresolvedStoreName itemName :: bodyIs) ?_
            (by simp only [List.length_append, List.length_cons,
              List.length_nil]; omega) inst hmapped
          intro inst' h'
          rcases List.mem_cons.mp h' with rfl | hmem
          · rfl
          · exact preOk_mono inst' (by omega) (Nat.le_refl _) (hbody inst' hmem)
    · simp only [List.mem_singleton] at h5
      subst h5
      simp only [preOk, decide_eq_true_eq, List.length_append,
        List.length_cons, List.length_nil]
      omega

theorem fn_stmtInv {offset numDefaults : Nat} {m m1 m2 m3 : ConstMap}
    {acc defaultInstructions codeIdx nameIdx : List Instruction}
    {rc : Const} {s functionName : String} {mb : Bool}
    (hD : (∃ ext, m1 = m ++ ext) ∧ (constsOk m = true → constsOk m1 = true)
        ∧ ∀ (b : Nat), ∀ inst ∈ defaultInstructions, preOk b m1.length inst = true)
    (hRC : constOk rc = true)
    (hC : process_constval rc m1 = (codeIdx, m2))
    (hN : process_constval (Const.str s) m2 = (nameIdx, m3)) :
    StmtInv acc offset m
      (acc ++ defaultInstructions ++ [Instruction.BuildList numDefaults] ++
        codeIdx ++ nameIdx ++
        [Instruction.MakeFunction mb,
         Instruction.UnresolvedStoreName functionName]) m3 := by
  obtain ⟨⟨e1, he1⟩, hc1, hp1⟩ := hD
  obtain ⟨⟨e2, he2⟩, hc2, hp2⟩ := process_constval_inv rc m1 codeIdx m2 hC
  obtain ⟨⟨e3, he3⟩, hc3, hp3⟩ := process_constval_inv _ m2 nameIdx m3 hN
  have hmm1 : m.length ≤ m1.length := by rw [he1]; simp
  have hmm2 : m1.length ≤ m2.length := by rw [he2]; simp
  have hmm3 : m2.length ≤ m3.length := by rw [he3]; simp
  refine ⟨⟨e1 ++ (e2 ++ e3), by rw [he3, he2, he1]; simp [List.append_assoc]⟩,
    fun hm => hc3 rfl (hc2 hRC (hc1 hm)),
    by simp only [List.length_append, List.length_cons, List.length_nil]; omega,
    ?_⟩
  intro hacc inst hi
  rcases List.mem_append.mp hi with h5 | htail
  · rcases List.mem_append.mp h5 with h4 | hname
    · rcases List.mem_append.mp h4 with h3 | hcode
      · rcases List.mem_append.mp h3 with h2 | hbl
        · rcases List.mem_append.mp h2 with ha | hdef
          · exact preOk_mono inst
              (by simp only [List.length_append, List.length_cons,
                List.length_nil]; omega)
              (Nat.le_trans hmm1 (Nat.le_trans hmm2 hmm3)) (hacc inst ha)
          · exact preOk_mono inst (Nat.le_refl _)
              (Nat.le_trans hmm2 hmm3) (hp1 _ inst hdef)
        · simp only [List.mem_singleton] at hbl
          subst hbl
          rfl
      · exact preOk_mono inst (Nat.le_refl _) hmm3 (hp2 _ inst hcode)
    · exact hp3 _ inst hname
  · simp only [List.mem_cons, List.not_mem_nil, or_false] at htail
    rcases htail with rfl | rfl <;> rfl

theorem class_stmtInv {offset : Nat} {m m1 m2 : ConstMap}
    {acc codeIdx nameIdx : List Instruction}
    {rc : Const} {s className : String}
    (hRC : constOk rc = true)
    (hC : process_constval rc m = (codeIdx, m1))
    (hN : process_constval (Const.str s) m1 = (nameIdx, m2)) :
    StmtInv acc offset m
      (acc ++ codeIdx ++ nameIdx ++
        [Instruction.MakeClass,
         Instruction.UnresolvedStoreName className]) m2 := by
  obtain ⟨⟨e1, he1⟩, hc1, hp1⟩ := process_constval_inv rc m codeIdx m1 hC
  obtain ⟨⟨e2, he2⟩, hc2, hp2⟩ := process_constval_inv _ m1 nameIdx m2 hN
  have hmm1 : m.length ≤ m1.length := by rw [he1]; simp
  have hmm2 : m1.length ≤ m2.length := by rw [he2]; simp
  refine ⟨⟨e1 ++ e2, by rw [he2, he1, List.append_assoc]⟩,
    fun hm => hc2 rfl (hc1 hRC hm),
    by simp only [List.length_append, List.length_cons, List.length_nil]; omega,
    ?_⟩
  intro hacc inst hi
  rcases List.mem_append.mp hi with h3 | htail
  · rcases List.mem_append.mp h3 with h2 | hname
    · rcases List.mem_append.mp h2 with ha | hcode
      · exact preOk_mono inst
          (by simp only [List.length_append, List.length_cons,
            List.length_nil]; omega)
          (Nat.le_trans hmm1 hmm2) (hacc inst ha)
      · exact preOk_mono inst (Nat.le_refl _) hmm2 (hp1 _ inst hcode)
    · exact hp2 _ inst hname
  · simp only [List.mem_cons, List.not_mem_nil, or_false] at htail
    rcases htail with rfl | rfl <;> rfl

mutual

theorem compile_stmt_inv (a : AST) : ∀ acc offset qual m res m',
    compile_stmt a acc offset qual m = some (res, m') →
      StmtInv acc offset m res m' := by
  cases a with
  | Assign path e =>
    intro acc offset qual m res m' h
    rw [compile_stmt_assign] at h
    split at h
    · rename_i eis m1 heqe
      have hE := compile_expr_inv e m eis m1 heqe
      split at h
      · simp only [Option.some.injEq, Prod.mk.injEq] at h
        obtain ⟨h1, h2⟩ := h
        subst h2
        subst h1
        exact stmtInv_append_simple hE (fun b => preOk_singleton rfl)
      · simp only [Option.some.injEq, Prod.mk.injEq] at h
        obtain ⟨h1, h2⟩ := h
        subst h2
        subst h1
        exact stmtInv_append_simple hE
          (fun b => generate_assign_path_preOk path true b m1.length)
    · cases h
  | StandaloneExpr e =>
    intro acc offset qual m res m' h
    rw [compile_stmt_standalone] at h
    split at h
    · rename_i eis m1 heqe
      simp only [Option.some.injEq, Prod.mk.injEq] at h
      obtain ⟨h1, h2⟩ := h
      subst h2
      subst h1
      exact stmtInv_append_simple (compile_expr_inv e m eis m1 heqe)
        (fun b => preOk_singleton rfl)
    · cases h
  | Return oe =>
    cases oe with
    | some e =>
      intro acc offset qual m res m' h
      rw [compile_stmt_return_some] at h
      split at h
      · rename_i eis m1 heqe
        simp only [Option.some.injEq, Prod.mk.injEq] at h
        obtain ⟨h1, h2⟩ := h
        subst h2
        subst h1
        exact stmtInv_append_simple (compile_expr_inv e m eis m1 heqe)
          (fun b => preOk_singleton rfl)
      · cases h
    | none =>
      intro acc offset qual m res m' h
      rw [compile_stmt_return_none] at h
      split at h
      · rename_i i heqi
        simp only [Option.some.injEq, Prod.mk.injEq] at h
        obtain ⟨h1, h2⟩ := h
        subst h2
        subst h1
        refine ⟨⟨[], by simp⟩, fun hm => hm,
          (by simp only [List.length_append, List.length_cons,
            List.length_nil]; omega), ?_⟩
        intro hacc inst hi
        rcases List.mem_append.mp hi with ha | ht
        · exact preOk_mono inst
            (by simp only [List.length_append, List.length_cons,
              List.length_nil]; omega)
            (Nat.le_refl _) (hacc inst ha)
        · simp only [List.mem_cons, List.not_mem_nil, or_false] at ht
          rcases ht with rfl | rfl
          · simp only [preOk, decide_eq_true_eq]
            exact cmIdxOf_lt m .noneVal i heqi
          · rfl
      · cases h
  | IfStatement cond trueStmts elifs finalElse =>
    cases finalElse with
    | none =>
      intro acc offset qual m res m' h
      rw [compile_stmt_if_none] at h
      split at h
      · rename_i condIs m1 heqc
        split at h
        · rename_i trueIs m2 heqt
          simp only [Option.some.injEq, Prod.mk.injEq] at h
          obtain ⟨h1, h2⟩ := h
          subst h2
          subst h1
          exact if_none_stmtInv (compile_expr_inv cond m condIs m1 heqc)
            (compile_stmts_inv trueStmts []
              (offset + (acc ++ condIs).length + 1) qual m1 trueIs m2 heqt)
        · cases h
      · cases h
    | some elseAst =>
      intro acc offset qual m res m' h
      rw [compile_stmt_if_some] at h
      split at h
      · rename_i condIs m1 heqc
        split at h
        · rename_i trueIs m2 heqt
          split at h
          · rename_i falseIs m3 heqf
            simp only [Option.some.injEq, Prod.mk.injEq] at h
            obtain ⟨h1, h2⟩ := h
            subst h2
            subst h1
            exact if_some_stmtInv (compile_expr_inv cond m condIs m1 heqc)
              (compile_stmts_inv trueStmts []
                (offset + (acc ++ condIs).length + 1) qual m1 trueIs m2 heqt)
              (compile_stmts_inv elseAst []
                (offset + (acc ++ condIs).length + 1 + trueIs.length + 1)
                qual m2 falseIs m3 heqf)
          · cases h
        · cases h
      · cases h
  | WhileStatement e body =>
    intro acc offset qual m res m' h
    rw [compile_stmt_while] at h
    split at h
    · rename_i exprIs m1 heqe
      split at h
      · rename_i bodyIs m2 heqb
        simp only [Option.some.injEq, Prod.mk.injEq] at h
        obtain ⟨h1, h2⟩ := h
        subst h2
        subst h1
        exact while_stmtInv (compile_expr_inv e m exprIs m1 heqe)
          (compile_stmts_inv body []
            (acc.length + exprIs.length + 1) qual m1 bodyIs m2 heqb)
      · cases h
    · cases h
  | ForStatement itemName listExpression body =>
    intro acc offset qual m res m' h
    rw [compile_stmt_for] at h
    split at h
    · rename_i listIs m1 heql
      split at h
      · rename_i bodyIs m2 heqb
        simp only [Option.some.injEq, Prod.mk.injEq] at h
        obtain ⟨h1, h2⟩ := h
        subst h2
        subst h1
        exact for_stmtInv (compile_expr_inv listExpression m listIs m1 heql)
          (compile_stmts_inv body [] 0 qual m1 bodyIs m2 heqb)
      · cases h
    · cases h
  | DeclareFunction functionName parameters body =>
    intro acc offset qual m res m' h
    rw [compile_stmt_fn] at h
    split at h
    · rename_i bodyInstrs newMap heqb
      split at h
      · rename_i funcCo mU heqmk
        split at h
        · rename_i defaultInstructions numDefaults m1 heqd
          split at h
          · rename_i resolved heqr
            split at h
            rename_i codeIdx m2 heqc
            split at h
            rename_i nameIdx m3 heqn
            simp only [Option.some.injEq, Prod.mk.injEq] at h
            obtain ⟨h1, h2⟩ := h
            subst h2
            subst h1
            exact fn_stmtInv
              (compileDefaults_inv parameters m defaultInstructions
                numDefaults m1 heqd)
              (inner_code_const_ok body
                (fun a2 o2 q2 m2' r2 m2'' hh =>
                  compile_stmts_inv body a2 o2 q2 m2' r2 m2'' hh)
                (some (build_fully_qualified_name qual functionName))
                (build_fully_qualified_name qual functionName)
                bodyInstrs newMap funcCo mU
                (parameters.map (fun x =>
                  match x with
                  | .Simple n => n
                  | .DefaultValue n _ => n)) resolved heqb heqmk heqr)
              heqc heqn
          · cases h
        · cases h
      · cases h
    · cases h
  | ClassDeclaration className body =>
    intro acc offset qual m res m' h
    rw [compile_stmt_class] at h
    split at h
    · rename_i bodyInstrs newMap heqb
      split at h
      · rename_i classCo mU heqmk
        split at h
        · rename_i resolved heqr
          split at h
          rename_i codeIdx m1 heqc
          split at h
          rename_i nameIdx m2 heqn
          simp only [Option.some.injEq, Prod.mk.injEq] at h
          obtain ⟨h1, h2⟩ := h
          subst h2
          subst h1
          exact class_stmtInv
            (inner_code_const_ok body
              (fun a2 o2 q2 m2' r2 m2'' hh =>
                compile_stmts_inv body a2 o2 q2 m2' r2 m2'' hh)
              (some (build_fully_qualified_name qual className))
              (build_fully_qualified_name qual className)
              bodyInstrs newMap classCo mU classCo.params resolved
              heqb heqmk heqr)
            heqc heqn
        · cases h
      · cases h
    · cases h
  | Raise e =>
    intro acc offset qual m res m' h
    rw [compile_stmt_raise] at h
    split at h
    · rename_i eis m1 heqe
      split at h
      · rename_i i heqi
        simp only [Option.some.injEq, Prod.mk.injEq] at h
        obtain ⟨h1, h2⟩ := h
        subst h2
        subst h1
        refine stmtInv_append_simple
          (exprInv_extend_intern (compile_expr_inv e m eis m1 heqe)) ?_
        intro b inst hi
        simp only [List.mem_cons, List.not_mem_nil, or_false] at hi
        rcases hi with rfl | rfl | rfl
        · rfl
        · simp only [preOk, decide_eq_true_eq]
          exact cmIdxOf_lt (internNone m1) .noneVal i heqi
        · rfl
      · cases h
    · cases h
  | Break =>
    intro acc offset qual m res m' h
    rw [compile_stmt_break] at h
    simp only [Option.some.injEq, Prod.mk.injEq] at h
    obtain ⟨h1, h2⟩ := h
    subst h2
    subst h1
    refine ⟨⟨[], by simp⟩, fun hm => hm,
      (by simp only [List.length_append, List.length_cons,
        List.length_nil]; omega), ?_⟩
    intro hacc inst hi
    rcases List.mem_append.mp hi with ha | ht
    · exact preOk_mono inst
        (by simp only [List.length_append, List.length_cons,
          List.length_nil]; omega)
        (Nat.le_refl _) (hacc inst ha)
    · simp only [List.mem_singleton] at ht
      subst ht
      rfl

theorem compile_stmts_inv (l : List AST) : ∀ acc offset qual m res m',
    compile_stmts l acc offset qual m = some (res, m') →
      StmtInv acc offset m res m' := by
  cases l with
  | nil =>
    intro acc offset qual m res m' h
    rw [compile_stmts_nil] at h
    simp only [Option.some.injEq, Prod.mk.injEq] at h
    obtain ⟨h1, h2⟩ := h
    subst h2
    subst h1
    exact ⟨⟨[], by simp⟩, fun hm => hm, Nat.le_refl _, fun hp => hp⟩
  | cons a rest =>
    intro acc offset qual m res m' h
    rw [compile_stmts_cons] at h
    split at h
    · rename_i acc1 m1 heq1
      exact stmtInv_comp (compile_stmt_inv a acc offset qual m acc1 m1 heq1)
        (compile_stmts_inv rest acc1 offset qual m1 res m' h)
    · cases h

end

/-! ## The claims -/

/-- C1: the claim states that the built-in list `__eq__` returns True iff the
lists have the same length and compare equal pairwise by index, and in
particular True for two empty lists.  The code inverts the result: for two
empty lists the length check passes, both loops are skipped, the
`list_equals` flag stays `true`, and the function returns the **False**
singleton — for every element-equality oracle and every pair of singleton
addresses.  (Spec §9 records this inversion, and the O(n²) pairing, as a bug
in the source.) -/
theorem c1_list_eq_empty_lists_returns_false
    (eqMethod : Nat → Nat → Option Nat) (trueAddr falseAddr : Nat) :
    list_equals eqMethod trueAddr falseAddr [] (.list []) = falseAddr := rfl

/-- C2: failing evaluation for the claim that a while's
`JumpIfFalseAndPopStack` targets the absolute index of the first instruction
after the loop's trailing `JumpUnconditional`.  For `if True: while True: 1`
the while is compiled at offset 2; its `JumpIfFalseAndPopStack` (instruction
index 3) carries target 5 — an index *inside* the loop body — because
`offset_after_expr` (compiler.rs:491) omits the enclosing `offset`, while the
first instruction after the trailing `JumpUnconditional` (index 6) is index 7.
The trailing jump itself correctly targets index 2, where the condition
begins. -/
theorem c2_nested_while_jump_target_not_absolute :
    (compile [AST.IfStatement (Expr.BooleanValue true)
        [AST.WhileStatement (Expr.BooleanValue true)
          [AST.StandaloneExpr (Expr.IntegerValue 1)]] [] Option.none]).map
      (fun p => p.code_objects.map CodeObject.instructions)
      = some [[.LoadConst 0, .JumpIfFalseAndPopStack 7, .LoadConst 0,
               .JumpIfFalseAndPopStack 5, .LoadConst 1, .PopTop,
               .JumpUnconditional 2, .LoadConst 2, .ReturnValue]]
    ∧ (5 : Nat) ≠ 7 := ⟨rfl, by decide⟩

/-- C3 counterexample: on the single-expression program `1`, `compile`
produces a top-level unit ending `PopTop; LoadConst(None); ReturnValue`
(satisfying the claim's hypothesis), but `compile_repl` leaves a unit ending
in `LoadConst(None)` — the trailing `ReturnValue` is removed too, so the
result does not end with `LoadConst(None); ReturnValue` as claimed. -/
theorem c3_counterexample_repl_also_pops_return :
    compile [AST.StandaloneExpr (Expr.IntegerValue 1)]
      = some ⟨1, [⟨[.LoadConst 0, .PopTop, .LoadConst 1, .ReturnValue], [], [],
          [.integer 1, .noneVal], true, "__main__"⟩]⟩
    ∧ compile_repl [AST.StandaloneExpr (Expr.IntegerValue 1)]
      = some ⟨1, [⟨[.LoadConst 0, .LoadConst 1], [], [],
          [.integer 1, .noneVal], true, "__main__"⟩]⟩
    ∧ [Instruction.LoadConst 0, Instruction.LoadConst 1].getLast?
        ≠ some Instruction.ReturnValue :=
  ⟨rfl, rfl, by decide⟩

/-- C3 as amended: whenever the compiled top-level unit ends with
`PopTop; LoadConst i; ReturnValue`, `compile_repl` removes the `PopTop` *and*
the trailing `ReturnValue` (the source's `instructions.pop()`), so the
resulting unit ends with `LoadConst i` and everything before is unchanged. -/
theorem c3_repl_removes_poptop_and_return (ast : List AST) (p : Program)
    (co : CodeObject) (pre : List Instruction) (i : Nat)
    (hc : compile ast = some p) (hco : p.code_objects = [co])
    (hi : co.instructions = pre ++ [.PopTop, .LoadConst i, .ReturnValue]) :
    compile_repl ast = some { p with code_objects :=
      [{ co with instructions := pre ++ [Instruction.LoadConst i] }] } := by
  have htrim : repl_trim co.instructions = some (pre ++ [Instruction.LoadConst i]) := by
    rw [hi]
    unfold repl_trim
    have hlen : (pre ++ [Instruction.PopTop, Instruction.LoadConst i,
        Instruction.ReturnValue]).length = pre.length + 3 := by simp
    simp only [hlen]
    rw [if_neg (by omega)]
    have hget : (pre ++ [Instruction.PopTop, Instruction.LoadConst i,
        Instruction.ReturnValue])[pre.length + 3 - 3]? = some Instruction.PopTop := by
      rw [Nat.add_sub_cancel, List.getElem?_append_right (Nat.le_refl _)]
      simp
    rw [hget]
    show some (((pre ++ [Instruction.PopTop, Instruction.LoadConst i,
        Instruction.ReturnValue]).eraseIdx (pre.length + 3 - 3)).dropLast) = _
    have herase : (pre ++ [Instruction.PopTop, Instruction.LoadConst i,
        Instruction.ReturnValue]).eraseIdx (pre.length + 3 - 3)
        = pre ++ [Instruction.LoadConst i, Instruction.ReturnValue] := by
      rw [Nat.add_sub_cancel]
      exact eraseIdx_append_cons pre _ _
    rw [herase]
    have hsplit : pre ++ [Instruction.LoadConst i, Instruction.ReturnValue]
        = (pre ++ [Instruction.LoadConst i]) ++ [Instruction.ReturnValue] := by simp
    rw [hsplit, List.dropLast_concat]
  obtain ⟨ver, cos⟩ := p
  change cos = [co] at hco
  subst hco
  unfold compile_repl
  rw [hc]
  show (match repl_trim co.instructions with
    | some instrs' =>
        some (Program.mk ver ([co].dropLast ++ [{ co with instructions := instrs' }]))
    | Option.none => Option.none) = _
  rw [htrim]
  rfl

/-- C3 witness: the amended statement applied to the program `1`. -/
theorem c3_repl_witness :
    compile_repl [AST.StandaloneExpr (Expr.IntegerValue 1)]
      = some ⟨1, [⟨[.LoadConst 0, .LoadConst 1], [], [],
          [.integer 1, .noneVal], true, "__main__"⟩]⟩ :=
  c3_repl_removes_poptop_and_return [AST.StandaloneExpr (Expr.IntegerValue 1)]
    ⟨1, [⟨[.LoadConst 0, .PopTop, .LoadConst 1, .ReturnValue], [], [],
        [.integer 1, .noneVal], true, "__main__"⟩]⟩
    ⟨[.LoadConst 0, .PopTop, .LoadConst 1, .ReturnValue], [], [],
        [.integer 1, .noneVal], true, "__main__"⟩
    [Instruction.LoadConst 0] 1 rfl rfl rfl

/-- C4: the claim states that compiling a bare `return` always succeeds and
emits `LoadConst(None); ReturnValue`.  The `AST::Return(None)` arm indexes
`const_map[&Const::None]` without interning `Const::None` first (unlike the
adjacent `Raise` arm and `make_code_object`), so on a program whose constant
map does not yet hold `None` — e.g. the single statement `return` — the
compiler panics instead of producing a program. -/
theorem c4_bare_return_panics :
    compile [AST.Return Option.none] = Option.none := rfl

/-- C5: for every code object whose parameter names are distinct, the
source's two-pass `resolve_loads_stores` (BTreeMap slots, overwrite-insert,
key-sorted rebuild of `names`) succeeds and produces exactly the resolution
the claim describes (`resolveSpec`): parameters occupy slots `0..k-1` in
declaration order; each first occurrence of a stored identifier gets the next
free slot; an `UnresolvedLoadName(n)` becomes `LoadName(slot)` when `n`
already has a slot (parameter, stored name, or earlier global) and otherwise
allocates a fresh slot and becomes `LoadGlobal(slot)`;
`UnresolvedStoreName`/`UnresolvedStoreAttr` become `StoreName`/`StoreAttr` at
the resolved slot; and the resulting `names` array maps each slot back to its
identifier (slot `i` holds the identifier whose slot is `i`). -/
theorem c5_resolution_matches_claim (code : CodeObject)
    (hnd : code.params.Nodup) :
    resolve_loads_stores code = some (resolveSpec code) := by
  unfold resolve_loads_stores
  rw [seedParams_eq code.params hnd, collectStores_eq code.instructions code.params,
    resolveInstrs_spec code.params code.instructions
      (specSeedNames code.instructions code.params)
      (fun p hp => mem_specSeedNames_mono code.instructions code.params p hp)
      (fun n hn => storeNames_subset_specSeedNames code.instructions code.params n hn)]
  show (match buildIndicesNames
      (sortByKey (nmOfNames (specResolveInstrs code.instructions
        (specSeedNames code.instructions code.params)).2))
      (List.replicate (nmOfNames (specResolveInstrs code.instructions
        (specSeedNames code.instructions code.params)).2).length "") with
    | some indicesNames =>
        some { code with
          instructions := (specResolveInstrs code.instructions
            (specSeedNames code.instructions code.params)).1,
          names := indicesNames }
    | Option.none => Option.none) = _
  rw [show (nmOfNames (specResolveInstrs code.instructions
      (specSeedNames code.instructions code.params)).2).length
      = (specResolveInstrs code.instructions
          (specSeedNames code.instructions code.params)).2.length from
      nmOfNamesFrom_length 0 _,
    buildIndicesNames_enum_perm _ _ (sortByKey_perm _)]
  rfl

/-- C5 witness: a code object with parameters `p, q`, a store, an attribute
store, and a global loaded twice. -/
theorem c5_resolution_witness :
    resolve_loads_stores
      ⟨[.UnresolvedLoadName "p", .UnresolvedStoreName "y", .UnresolvedLoadName "g",
        .UnresolvedLoadName "g", .UnresolvedStoreAttr "fld"],
       [], ["p", "q"], [], false, "f"⟩
      = some (resolveSpec
      ⟨[.UnresolvedLoadName "p", .UnresolvedStoreName "y", .UnresolvedLoadName "g",
        .UnresolvedLoadName "g", .UnresolvedStoreAttr "fld"],
       [], ["p", "q"], [], false, "f"⟩) :=
  c5_resolution_matches_claim
    ⟨[.UnresolvedLoadName "p", .UnresolvedStoreName "y", .UnresolvedLoadName "g",
      .UnresolvedLoadName "g", .UnresolvedStoreAttr "fld"],
     [], ["p", "q"], [], false, "f"⟩ (by decide)

/-- C6 counterexample: `__getitem__` with index `2^64` on the one-element list
`[7]` returns the element instead of raising `IndexError`, because the `i128`
index is cast `as usize` (truncated to its low 64 bits, here `0`); the claim
demands an `IndexError` for any index outside `0 ≤ i < 1`. -/
theorem c6_counterexample_huge_index :
    list_getitem [7] ((2 : Int) ^ 64) = .value 7 ∧ ¬ ((2 : Int) ^ 64 < 1) :=
  ⟨rfl, by decide⟩

/-- C6 as amended: `__getitem__` acts on the index truncated to its low 64
bits, `j = i mod 2^64`: it returns the element at position `j` when
`j < len(l)` and raises `IndexError` exactly when `j ≥ len(l)`.  (For
`0 ≤ i < len(l)` with `i < 2^64` this is the behaviour the claim describes;
it differs for indices beyond 64 bits, including all negative indices, which
truncate into `[2^63, 2^64)`.) -/
theorem c6_getitem_truncates_to_64_bits (l : List Nat) (i : Int) :
    (∀ a, list_getitem l i = .value a ↔ l[(i % 2 ^ 64).toNat]? = some a)
    ∧ (list_getitem l i = .indexError "list index out of range"
        ↔ l.length ≤ (i % 2 ^ 64).toNat) := by
  unfold list_getitem
  by_cases h : (i % 2 ^ 64).toNat < l.length
  · rw [dif_pos h]
    refine ⟨fun a => ?_, ?_⟩
    · rw [List.getElem?_eq_getElem h]
      constructor
      · intro h2
        injection h2 with h3
        rw [← h3, List.get_eq_getElem]
      · intro h2
        injection h2 with h3
        rw [List.get_eq_getElem, h3]
    · constructor
      · intro h2
        cases h2
      · intro h2
        omega
  · rw [dif_neg h]
    refine ⟨fun a => ?_, ?_⟩
    · rw [List.getElem?_eq_none (by omega)]
      constructor
      · intro h2
        cases h2
      · intro h2
        cases h2
    · simp
      omega

/-- C9: `append` pushes its single argument onto the receiver's list payload,
leaves every other address' object (payload and attributes) untouched, leaves
the receiver's attributes untouched, returns the receiver's own address, and
grows the receiver's length by exactly one. -/
theorem c9_append_effect (heap : Heap) (recv x : Nat) (obj : PyObject)
    (es : List Nat) (hl : heapLookup heap recv = some obj)
    (hd : obj.data = .list es) :
    list_append heap recv x
      = some (heapUpdate heap recv { obj with data := .list (es ++ [x]) }, recv)
    ∧ heapLookup (heapUpdate heap recv { obj with data := .list (es ++ [x]) }) recv
      = some { obj with data := .list (es ++ [x]) }
    ∧ (∀ a, a ≠ recv →
        heapLookup (heapUpdate heap recv { obj with data := .list (es ++ [x]) }) a
          = heapLookup heap a)
    ∧ (es ++ [x]).length = es.length + 1 := by
  refine ⟨?_, heapLookup_update_self _ _ _ _ hl,
    fun a ha => heapLookup_update_other _ _ _ _ ha, by simp⟩
  unfold list_append
  rw [hl]
  show (match obj.data with
    | .list selfData =>
        some (heapUpdate heap recv { obj with data := .list (selfData ++ [x]) }, recv)
    | _ => Option.none) = _
  rw [hd]

/-- C9 witness: appending address 9 to a one-element list at address 0. -/
theorem c9_append_effect_witness :
    list_append [(0, ⟨[], .list [5]⟩)] 0 9 = some ([(0, ⟨[], .list [5, 9]⟩)], 0) :=
  (c9_append_effect [(0, ⟨[], .list [5]⟩)] 0 9 ⟨[], .list [5]⟩ [5] rfl rfl).1

/-- C10: `compile` is not total — on the empty statement list the return
synthesis calls `.last().unwrap()` on an empty instruction vector and panics —
and every `Program` that `compile` does return has a non-empty instruction
sequence in (every element of) its `code_objects`, in particular in the
top-level unit. -/
theorem c10_compile_not_total_and_nonempty :
    compile ([] : List AST) = Option.none
    ∧ ∀ (ast : List AST) (p : Program), compile ast = some p →
        ∀ co ∈ p.code_objects, co.instructions ≠ [] := by
  refine ⟨rfl, ?_⟩
  intro ast p hc co hco
  unfold compile at hc
  split at hc
  · rename_i cr m h1
    split at hc
    · rename_i resolved h2
      simp only [Option.some.injEq] at hc
      rw [← hc] at hco
      simp only [List.mem_singleton] at hco
      subst hco
      have hlen := (resolve_preserves _ _ h2).1
      intro hnil
      rw [hnil] at hlen
      unfold compile_ast_internal at h1
      split at h1
      · rename_i instrs m1 _
        have := make_code_object_ne_nil _ _ _ _ _ h1
        simp only [List.length_nil] at hlen
        exact this (List.length_eq_zero.mp hlen.symm)
      · cases h1
    · cases hc
  · cases hc

/-- C10 witness: the non-emptiness part applied to the program `1`. -/
theorem c10_compile_nonempty_witness :
    ([Instruction.LoadConst 0, Instruction.PopTop, Instruction.LoadConst 1,
      Instruction.ReturnValue] : List Instruction) ≠ [] :=
  c10_compile_not_total_and_nonempty.2 [AST.StandaloneExpr (Expr.IntegerValue 1)]
    ⟨1, [⟨[.LoadConst 0, .PopTop, .LoadConst 1, .ReturnValue], [], [],
        [.integer 1, .noneVal], true, "__main__"⟩]⟩ rfl
    ⟨[.LoadConst 0, .PopTop, .LoadConst 1, .ReturnValue], [], [],
        [.integer 1, .noneVal], true, "__main__"⟩
    (List.mem_singleton.mpr rfl)

mutual
theorem compile_stmt_strip (a : AST) (acc : List Instruction) (offset : Nat)
    (qual : Option String) (m : ConstMap) :
    compile_stmt (stripStmt a) acc offset qual m = compile_stmt a acc offset qual m := by
  cases a with
  | Assign p e => rfl
  | StandaloneExpr e => rfl
  | Return e => cases e <;> rfl
  | Raise e => rfl
  | Break => rfl
  | IfStatement c t elifs f =>
    have ht := fun a2 o q2 m2 => compile_stmts_strip t a2 o q2 m2
    cases f with
    | none =>
      show compile_stmt (.IfStatement c (stripStmts t) [] Option.none) acc offset qual m = _
      rw [compile_stmt_if_none c (stripStmts t) [],
        compile_stmt_if_none c t elifs]
      simp only [ht]
    | some elseAst =>
      have he := fun a2 o q2 m2 => compile_stmts_strip elseAst a2 o q2 m2
      show compile_stmt (.IfStatement c (stripStmts t) []
        (some (stripStmts elseAst))) acc offset qual m = _
      rw [compile_stmt_if_some c (stripStmts t) [] (stripStmts elseAst),
        compile_stmt_if_some c t elifs elseAst]
      simp only [ht, he]
  | WhileStatement e body =>
    have hb := fun a2 o q2 m2 => compile_stmts_strip body a2 o q2 m2
    show compile_stmt (.WhileStatement e (stripStmts body)) acc offset qual m = _
    rw [compile_stmt_while e (stripStmts body), compile_stmt_while e body]
    simp only [hb]
  | ForStatement n e body =>
    have hb := fun a2 o q2 m2 => compile_stmts_strip body a2 o q2 m2
    show compile_stmt (.ForStatement n e (stripStmts body)) acc offset qual m = _
    rw [compile_stmt_for n e (stripStmts body), compile_stmt_for n e body]
    simp only [hb]
  | DeclareFunction n ps body =>
    have hb := fun a2 o q2 m2 => compile_stmts_strip body a2 o q2 m2
    show compile_stmt (.DeclareFunction n ps (stripStmts body)) acc offset qual m = _
    rw [compile_stmt_fn n ps (stripStmts body), compile_stmt_fn n ps body]
    simp only [hb]
  | ClassDeclaration n body =>
    have hb := fun a2 o q2 m2 => compile_stmts_strip body a2 o q2 m2
    show compile_stmt (.ClassDeclaration n (stripStmts body)) acc offset qual m = _
    rw [compile_stmt_class n (stripStmts body), compile_stmt_class n body]
    simp only [hb]

theorem compile_stmts_strip (l : List AST) (acc : List Instruction) (offset : Nat)
    (qual : Option String) (m : ConstMap) :
    compile_stmts (stripStmts l) acc offset qual m = compile_stmts l acc offset qual m := by
  cases l with
  | nil => rfl
  | cons a rest =>
    have h2 := fun a2 o q2 m2 => compile_stmts_strip rest a2 o q2 m2
    show compile_stmts (stripStmt a :: stripStmts rest) acc offset qual m = _
    rw [compile_stmts_cons (stripStmt a) (stripStmts rest),
      compile_stmts_cons a rest, compile_stmt_strip a acc offset qual m]
    simp only [h2]
end

theorem compile_strip (ast : List AST) : compile (stripStmts ast) = compile ast := by
  unfold compile compile_ast_internal
  rw [compile_stmts_strip ast [] 0 Option.none []]

/-- C7: for every AST accepted by the compiler, in every code object of the
resulting `Program` — including code objects nested in the constant table —
every jump target `t` of `JumpUnconditional`, `JumpIfFalseAndPopStack` and
`ForIter` satisfies `t ≤ instructions.length` (so `0 ≤ t ≤ instructions.len()`
in the claim's `usize` terms), every `LoadConst i` satisfies
`i < consts.length`, and every `LoadName`/`StoreName`/`StoreAttr`/`LoadGlobal`
slot `s` satisfies `s < names.length`.  Proved by a statement-level invariant
(`StmtInv`) over the compiler loop: the constant map only grows and stays
well-bounded, every emitted jump stays below the final instruction count
(even the while-loop targets affected by the missing `+ offset`, which are
smaller than intended and hence still in bounds), and `resolve_loads_stores`
turns map slots into indices below the rebuilt `names` array's length. -/
theorem c7_compile_bounds (ast : List AST) (p : Program)
    (h : compile ast = some p) : programOk p = true := by
  unfold compile at h
  split at h
  · rename_i compileResult mX heqi
    split at h
    · rename_i resolved heqr
      simp only [Option.some.injEq] at h
      subst h
      show ([resolved].all codeOk) = true
      simp only [List.all_cons, List.all_nil, Bool.and_true]
      unfold compile_ast_internal at heqi
      split at heqi
      · rename_i instrs m' heqs
        obtain ⟨_, hco1, _, hpre⟩ :=
          compile_stmts_inv ast [] 0 Option.none [] instrs m' heqs
        have hinstrs : ∀ inst ∈ instrs, preOk instrs.length m'.length inst = true := by
          have := hpre (fun inst hi => absurd hi (List.not_mem_nil inst))
          simpa using this
        obtain ⟨⟨e2, he2⟩, hco2, hcc, _, _, hlen, hmk⟩ :=
          make_code_object_inv instrs _ m' true compileResult mX heqi
        have hcr_pre : ∀ inst ∈ compileResult.instructions,
            preOk compileResult.instructions.length mX.length inst = true :=
          preOk_all_mono _ hlen (Nat.le_refl _) (hmk instrs.length hinstrs)
        have hro := resolve_ok { compileResult with main := true } resolved
          compileResult.instructions.length heqr (by
            show ∀ inst ∈ compileResult.instructions,
              preOk compileResult.instructions.length
                compileResult.consts.length inst = true
            rw [hcc]
            exact hcr_pre)
        have hrp := resolve_preserves { compileResult with main := true }
          resolved heqr
        unfold codeOk
        have hinstr : instrsOk resolved.instructions resolved.instructions.length
            resolved.consts.length resolved.names.length = true := by
          unfold instrsOk
          rw [List.all_eq_true]
          intro inst hi
          have hre : resolved.instructions.length
              = compileResult.instructions.length := hrp.1
          rw [hre]
          exact hro inst hi
        have hconsts : constsOk resolved.consts = true := by
          have hce : resolved.consts = mX := by rw [hrp.2.1]; exact hcc
          rw [hce]
          exact hco2 (hco1 rfl)
        rw [hinstr, hconsts]
        rfl
      · cases heqi
    · cases h
  · cases h

/-- Closed witness for C7: `compile` accepts the program `1` (a standalone
expression), and `programOk` evaluates to `true` on the resulting program. -/
theorem c7_compile_bounds_witness :
    programOk ⟨1, [⟨[.LoadConst 0, .PopTop, .LoadConst 1, .ReturnValue], [], [],
        [.integer 1, .noneVal], true, "__main__"⟩]⟩ = true :=
  c7_compile_bounds [AST.StandaloneExpr (Expr.IntegerValue 1)]
    ⟨1, [⟨[.LoadConst 0, .PopTop, .LoadConst 1, .ReturnValue], [], [],
        [.integer 1, .noneVal], true, "__main__"⟩]⟩ rfl

/-- C8: the `elifs` field of `IfStatement` nodes has no influence on the
compiler's output — the arm binds it as `elifs: _` — so any two statement
lists that agree after erasing every `elifs` field compile to identical
`Program`s. -/
theorem c8_elifs_do_not_affect_compile (a b : List AST)
    (h : stripStmts a = stripStmts b) : compile a = compile b := by
  rw [← compile_strip a, ← compile_strip b, h]

/-- C8 witness: two programs differing only in an `elifs` list compile
identically. -/
theorem c8_elifs_witness :
    stripStmts [AST.IfStatement (Expr.BooleanValue true) [AST.Break]
        [(Expr.BooleanValue false, [AST.StandaloneExpr Expr.NoneValue])] Option.none]
      = stripStmts [AST.IfStatement (Expr.BooleanValue true) [AST.Break] [] Option.none]
    ∧ compile [AST.IfStatement (Expr.BooleanValue true) [AST.Break]
        [(Expr.BooleanValue false, [AST.StandaloneExpr Expr.NoneValue])] Option.none]
      = compile [AST.IfStatement (Expr.BooleanValue true) [AST.Break] [] Option.none] :=
  ⟨rfl, c8_elifs_do_not_affect_compile _ _ rfl⟩

end SlowPython
